import Mathlib

/-!
Verification of the core logic of the MOBA Team Management repository
(src/MOBA.py, version V0.2.0, and src/quickteamcheck.py, version V0.1.0).

Shallow embedding conventions:
* Python `int` is modelled by `ℤ`; the float arithmetic of the scoring
  pipeline is idealised as exact rational arithmetic (`ℚ`).  All the
  quantities involved are small sums, products and divisions of integers
  and the literals 0.8, 0.6, 0.98, 0.95, 0.90, 0.88, so `ℚ` is the
  intended real-number semantics of the code.
* Python's `round(x, 2)` is modelled by `round2` below (round the value
  multiplied by 100 to an integer, divide by 100).  Python rounds exact
  halves to even; every property proved here is insensitive to the
  behaviour at exact halves.
* A player dict is a record of name, age and a skill map; the skill map
  `skills.get(skill, 0)` is an association list looked up with default 0.
* Fallible code paths (the `IndexError` raised by the Hungarian wrapper
  on rosters of size 1..4) are modelled with `Option`.
-/

/-- The five roles, in the insertion order of the `ROLES` dict shared by
both source files: Top Laner, Jungler, Mid Laner, Bot Laner, Support. -/
inductive Role where
  | topLaner
  | jungler
  | midLaner
  | botLaner
  | support
deriving DecidableEq, Repr

/-- `list(self.ROLES.keys())`: the roles in dict insertion order. -/
def rolesList : List Role :=
  [Role.topLaner, Role.jungler, Role.midLaner, Role.botLaner, Role.support]

/-- Index of a role in `rolesList` (used by both assignment solvers). -/
def roleIdx : Role → Nat
  | Role.topLaner => 0
  | Role.jungler => 1
  | Role.midLaner => 2
  | Role.botLaner => 3
  | Role.support => 4

/-- `roles[j]` for `j < 5` (the Hungarian result-interpretation loop only
reads indices `< num_roles`; the default branch is never reached there). -/
def roleOfIdx : Nat → Role
  | 0 => Role.topLaner
  | 1 => Role.jungler
  | 2 => Role.midLaner
  | 3 => Role.botLaner
  | _ => Role.support

/-- `ROLES[role]["primary"]` (identical table in both files). -/
def primarySkills : Role → List String
  | Role.topLaner => ["Bravery", "Composure", "Concentration"]
  | Role.jungler =>
      ["Bravery", "Decision", "Vision", "Anticipation", "Communication", "Memory", "Teamwork"]
  | Role.midLaner => ["Leadership", "Vision", "Anticipation", "Communication", "Flair"]
  | Role.botLaner => ["Accuracy", "Dexterity"]
  | Role.support =>
      ["Leadership", "Vision", "Memory", "Teamwork", "Communication", "Anticipation"]

/-- `ROLES[role]["secondary"]` (identical table in both files). -/
def secondarySkills : Role → List String
  | Role.topLaner => ["Communication", "Vision"]
  | Role.jungler => ["Composure", "Concentration", "Leadership", "Flair"]
  | Role.midLaner => ["Bravery", "Composure", "Decision", "Concentration", "Teamwork"]
  | Role.botLaner =>
      ["Composure", "Decision", "Determination", "Leadership", "Vision", "Teamwork",
       "Flair", "Concentration", "Communication", "Anticipation"]
  | Role.support => ["Composure", "Decision", "Concentration"]

/-- A player record: `{"name": ..., "age": ..., "skills": {...}}`. -/
structure Player where
  name : String
  age : ℤ
  skills : List (String × ℤ)
deriving DecidableEq, Repr

/-- A default player used only as the out-of-range fallback of `List.getD`. -/
def defaultPlayer : Player := { name := "", age := 0, skills := [] }

/-- `player["skills"].get(skill, 0)`. -/
def getSkill (skills : List (String × ℤ)) (skill : String) : ℤ :=
  (skills.lookup skill).getD 0

/-- Clamp to [0, 100]: `max(0, min(final_percentage, 100))`. -/
def clampScore (x : ℚ) : ℚ := max 0 (min x 100)

/-- `round(x, 2)`. -/
def round2 (x : ℚ) : ℚ := (round (x * 100) : ℤ) / 100

namespace MOBA

/-- `apply_diminishing_returns` of src/MOBA.py (lines 476-479). -/
def apply_diminishing_returns (skill_value : ℚ) : ℚ :=
  if skill_value ≤ 70 then skill_value
  else if skill_value ≤ 85 then 70 + (skill_value - 70) * (8 / 10)
  else 82 + (skill_value - 85) * (6 / 10)

/-- `calculate_age_multiplier` of src/MOBA.py (lines 496-501). -/
def calculate_age_multiplier (age : ℤ) : ℚ :=
  if 18 ≤ age ∧ age ≤ 22 then 1
  else if 23 ≤ age ∧ age ≤ 25 then 98 / 100
  else if 26 ≤ age ∧ age ≤ 28 then 95 / 100
  else if age < 18 then 90 / 100
  else 88 / 100

/-- The `role_bonuses` table of src/MOBA.py `calculate_role_bonus`
(lines 483-489): per role a list of (core skill, threshold) pairs and the
bonus value. -/
def role_bonuses : Role → List (String × ℤ) × ℚ
  | Role.jungler => ([("Decision", 80), ("Vision", 80), ("Communication", 80)], 15)
  | Role.midLaner => ([("Leadership", 80), ("Vision", 80), ("Flair", 80)], 15)
  | Role.botLaner => ([("Accuracy", 90), ("Dexterity", 90)], 20)
  | Role.support => ([("Vision", 80), ("Communication", 80), ("Teamwork", 80)], 15)
  | Role.topLaner => ([("Bravery", 80), ("Composure", 80), ("Concentration", 80)], 15)

/-- `calculate_role_bonus` of src/MOBA.py (lines 481-494).  Every role is
a key of the table, so the `if role in role_bonuses` test always succeeds;
the bonus is added exactly when every (skill, threshold) pair of the
table is met by the raw skill values, and the result passes through
`min(bonus, 25)`. -/
def calculate_role_bonus (player : Player) (role : Role) : ℚ :=
  let rb := role_bonuses role
  let bonus : ℚ :=
    if rb.1.all (fun st => decide (st.2 ≤ getSkill player.skills st.1)) then rb.2 else 0
  min bonus 25

/-- The primary-skill percentage computed inside `calculate_role_percentages`
of src/MOBA.py (lines 454-457), including the `if max_primary > 0` guard. -/
def primary_percentage (player : Player) (role : Role) : ℚ :=
  let primary_score : ℚ :=
    ((primarySkills role).map
      (fun s => apply_diminishing_returns ((getSkill player.skills s : ℤ) : ℚ))).sum
  let max_primary : ℚ := (primarySkills role).length * 100
  if 0 < max_primary then primary_score / max_primary * 100 else 0

/-- `base_percentage = primary_percentage * age_multiplier`
(src/MOBA.py lines 459-460). -/
def base_percentage (player : Player) (role : Role) : ℚ :=
  primary_percentage player role * calculate_age_multiplier player.age

/-- The secondary bonus of src/MOBA.py (lines 464-470); all five roles have
a non-empty secondary list, so the `if criteria["secondary"]` test
succeeds for each of them. -/
def secondary_bonus (player : Player) (role : Role) : ℚ :=
  if (secondarySkills role).isEmpty then 0
  else
    let secondary_score : ℚ :=
      ((secondarySkills role).map
        (fun s => apply_diminishing_returns ((getSkill player.skills s : ℤ) : ℚ))).sum
    let max_secondary : ℚ := (secondarySkills role).length * 100
    let secondary_percentage : ℚ := secondary_score / max_secondary * 100
    min 15 (secondary_percentage / 100 * 15)

/-- `calculate_role_percentages` of src/MOBA.py (lines 451-474), as a
function of the role: base + role bonus + secondary bonus, clamped to
[0, 100] and rounded to two decimals. -/
def calculate_role_percentages (player : Player) (role : Role) : ℚ :=
  round2 (clampScore
    (base_percentage player role + calculate_role_bonus player role +
      secondary_bonus player role))

end MOBA

namespace QTC

/-- `apply_diminishing_returns` of src/quickteamcheck.py (lines 558-565);
identical to the V0.2.0 version. -/
def apply_diminishing_returns (skill_value : ℚ) : ℚ :=
  if skill_value ≤ 70 then skill_value
  else if skill_value ≤ 85 then 70 + (skill_value - 70) * (8 / 10)
  else 82 + (skill_value - 85) * (6 / 10)

/-- `calculate_age_multiplier` of src/quickteamcheck.py (lines 611-622);
identical to the V0.2.0 version. -/
def calculate_age_multiplier (age : ℤ) : ℚ :=
  if 18 ≤ age ∧ age ≤ 22 then 1
  else if 23 ≤ age ∧ age ≤ 25 then 98 / 100
  else if 26 ≤ age ∧ age ≤ 28 then 95 / 100
  else if age < 18 then 90 / 100
  else 88 / 100

/-- `calculate_role_bonus` of src/quickteamcheck.py (lines 567-609): a
tiered bonus per role (full tier, a lower ≥ 70 tier) plus role-specific
two-skill combo bonuses of 8, capped by `min(bonus, 25)`. -/
def calculate_role_bonus (player : Player) (role : Role) : ℚ :=
  let skills := player.skills
  let meets : List String → ℤ → Bool := fun core t =>
    core.all (fun s => decide (t ≤ getSkill skills s))
  let bonus : ℚ :=
    match role with
    | Role.jungler =>
        let core := ["Decision", "Vision", "Communication"]
        (if meets core 80 then (15 : ℚ) else if meets core 70 then 10 else 0) +
          (if 85 ≤ getSkill skills "Anticipation" ∧ 80 ≤ getSkill skills "Memory"
            then 8 else 0)
    | Role.midLaner =>
        let core := ["Leadership", "Vision", "Flair"]
        (if meets core 80 then (15 : ℚ) else if meets core 70 then 10 else 0) +
          (if 85 ≤ getSkill skills "Anticipation" ∧ 80 ≤ getSkill skills "Communication"
            then 8 else 0)
    | Role.botLaner =>
        let core := ["Accuracy", "Dexterity"]
        if meets core 90 then (20 : ℚ)
        else if meets core 80 then 15
        else if meets core 70 then 10 else 0
    | Role.support =>
        let core := ["Vision", "Communication", "Teamwork"]
        (if meets core 80 then (15 : ℚ) else if meets core 70 then 10 else 0) +
          (if 85 ≤ getSkill skills "Memory" ∧ 80 ≤ getSkill skills "Anticipation"
            then 8 else 0)
    | Role.topLaner =>
        let core := ["Bravery", "Composure", "Concentration"]
        if meets core 80 then (15 : ℚ) else if meets core 70 then 10 else 0
  min bonus 25

/-- The primary-skill percentage of src/quickteamcheck.py (lines 539-542);
this version divides without a positivity guard (every role of the
catalog has a non-empty primary list). -/
def primary_percentage (player : Player) (role : Role) : ℚ :=
  let primary_score : ℚ :=
    ((primarySkills role).map
      (fun s => apply_diminishing_returns ((getSkill player.skills s : ℤ) : ℚ))).sum
  let max_primary : ℚ := (primarySkills role).length * 100
  primary_score / max_primary * 100

/-- `base_percentage` of src/quickteamcheck.py (lines 543-544). -/
def base_percentage (player : Player) (role : Role) : ℚ :=
  primary_percentage player role * calculate_age_multiplier player.age

/-- The secondary bonus of src/quickteamcheck.py (lines 546-553). -/
def secondary_bonus (player : Player) (role : Role) : ℚ :=
  if (secondarySkills role).isEmpty then 0
  else
    let secondary_score : ℚ :=
      ((secondarySkills role).map
        (fun s => apply_diminishing_returns ((getSkill player.skills s : ℤ) : ℚ))).sum
    let max_secondary : ℚ := (secondarySkills role).length * 100
    let secondary_percentage : ℚ := secondary_score / max_secondary * 100
    min 15 (secondary_percentage / 100 * 15)

/-- `calculate_role_percentages` of src/quickteamcheck.py (lines 517-556). -/
def calculate_role_percentages (player : Player) (role : Role) : ℚ :=
  round2 (clampScore
    (base_percentage player role + calculate_role_bonus player role +
      secondary_bonus player role))

end QTC

/-! ### Helper lemmas about the scoring pipeline -/

lemma clampScore_nonneg (x : ℚ) : 0 ≤ clampScore x := le_max_left 0 _

lemma clampScore_le (x : ℚ) : clampScore x ≤ 100 :=
  max_le (by norm_num) (min_le_right x 100)

lemma round2_nonneg {x : ℚ} (h0 : 0 ≤ x) : 0 ≤ round2 x := by
  have h : (0 : ℤ) ≤ round (x * 100) := by
    rw [round_eq]
    exact Int.le_floor.2 (by push_cast; linarith)
  have h2 : (0 : ℚ) ≤ ((round (x * 100) : ℤ) : ℚ) := by exact_mod_cast h
  unfold round2
  linarith

lemma round2_le {x : ℚ} (h1 : x ≤ 100) : round2 x ≤ 100 := by
  have h : round (x * 100) ≤ (10000 : ℤ) := by
    rw [round_eq]
    have hfl : (⌊x * 100 + 1 / 2⌋ : ℤ) < 10001 := Int.floor_lt.2 (by push_cast; linarith)
    omega
  have h2 : ((round (x * 100) : ℤ) : ℚ) ≤ 10000 := by exact_mod_cast h
  unfold round2
  linarith

lemma MOBA_pct_nonneg (p : Player) (r : Role) : 0 ≤ MOBA.calculate_role_percentages p r :=
  round2_nonneg (clampScore_nonneg _)

lemma MOBA_pct_le (p : Player) (r : Role) : MOBA.calculate_role_percentages p r ≤ 100 :=
  round2_le (clampScore_le _)

lemma QTC_pct_nonneg (p : Player) (r : Role) : 0 ≤ QTC.calculate_role_percentages p r :=
  round2_nonneg (clampScore_nonneg _)

lemma QTC_pct_le (p : Player) (r : Role) : QTC.calculate_role_percentages p r ≤ 100 :=
  round2_le (clampScore_le _)

lemma MOBA_adr_lt {v1 v2 : ℚ} (h : v1 < v2) :
    MOBA.apply_diminishing_returns v1 < MOBA.apply_diminishing_returns v2 := by
  unfold MOBA.apply_diminishing_returns
  split_ifs <;> linarith

/-! ### C5: diminishing-returns transform -/

/-- C5: the diminishing-returns transform is strictly increasing on [0,100]
(in both source files, whose transforms are identical), and saturates:
its value at the maximal raw input 100 is 91 < 100. -/
theorem C5_transform_strict_mono_and_saturates (v1 v2 : ℚ)
    (_h0 : 0 ≤ v1) (h : v1 < v2) (_h100 : v2 ≤ 100) :
    MOBA.apply_diminishing_returns v1 < MOBA.apply_diminishing_returns v2 ∧
    QTC.apply_diminishing_returns v1 < QTC.apply_diminishing_returns v2 ∧
    MOBA.apply_diminishing_returns 100 = 91 ∧
    MOBA.apply_diminishing_returns 100 < 100 := by
  refine ⟨MOBA_adr_lt h, MOBA_adr_lt h, ?_, ?_⟩ <;>
    norm_num [MOBA.apply_diminishing_returns]

/-- Witness for C5 at the concrete pair (3, 7). -/
theorem C5_transform_witness :
    (0 : ℚ) ≤ 3 ∧ (3 : ℚ) < 7 ∧ (7 : ℚ) ≤ 100 ∧
    (MOBA.apply_diminishing_returns 3 < MOBA.apply_diminishing_returns 7 ∧
     QTC.apply_diminishing_returns 3 < QTC.apply_diminishing_returns 7 ∧
     MOBA.apply_diminishing_returns 100 = 91 ∧
     MOBA.apply_diminishing_returns 100 < 100) :=
  ⟨by norm_num, by norm_num, by norm_num,
    C5_transform_strict_mono_and_saturates 3 7 (by norm_num) (by norm_num) (by norm_num)⟩

/-! ### C6: age multiplier -/

/-- C6: the age multiplier is exactly the step function 1.0 on 18-22,
0.98 on 23-25, 0.95 on 26-28, 0.90 below 18 and 0.88 above 28 (identical
in both files), and the under-18 value exceeds the over-28 value. -/
theorem C6_age_multiplier_step (age : ℤ) :
    ((18 ≤ age ∧ age ≤ 22) → MOBA.calculate_age_multiplier age = 1) ∧
    ((23 ≤ age ∧ age ≤ 25) → MOBA.calculate_age_multiplier age = 98 / 100) ∧
    ((26 ≤ age ∧ age ≤ 28) → MOBA.calculate_age_multiplier age = 95 / 100) ∧
    (age < 18 → MOBA.calculate_age_multiplier age = 90 / 100) ∧
    (28 < age → MOBA.calculate_age_multiplier age = 88 / 100) ∧
    MOBA.calculate_age_multiplier age = QTC.calculate_age_multiplier age ∧
    (88 : ℚ) / 100 < 90 / 100 := by
  refine ⟨?_, ?_, ?_, ?_, ?_, rfl, by norm_num⟩ <;>
    (intro h; unfold MOBA.calculate_age_multiplier;
     split_ifs <;> first | rfl | (exfalso; omega))

/-- Witness for C6 at age 17 (under-18 bucket). -/
theorem C6_age_multiplier_witness :
    (¬ (18 ≤ (17 : ℤ) ∧ (17 : ℤ) ≤ 22)) ∧
    ((17 : ℤ) < 18 → MOBA.calculate_age_multiplier 17 = 90 / 100) ∧
    (88 : ℚ) / 100 < 90 / 100 :=
  ⟨by omega, (C6_age_multiplier_step 17).2.2.2.1, (C6_age_multiplier_step 17).2.2.2.2.2.2⟩

/-! ### C7: fit-percentage bounds and formula -/

/-- C7: for every player and role (in both implementations) the fit
percentage lies in [0, 100] and equals the clamp of base percentage +
role bonus + secondary bonus to [0, 100], rounded to two decimals. -/
theorem C7_percentage_bounded (p : Player) (r : Role) :
    (0 ≤ MOBA.calculate_role_percentages p r ∧
     MOBA.calculate_role_percentages p r ≤ 100 ∧
     MOBA.calculate_role_percentages p r =
       round2 (clampScore (MOBA.base_percentage p r + MOBA.calculate_role_bonus p r +
         MOBA.secondary_bonus p r))) ∧
    (0 ≤ QTC.calculate_role_percentages p r ∧
     QTC.calculate_role_percentages p r ≤ 100 ∧
     QTC.calculate_role_percentages p r =
       round2 (clampScore (QTC.base_percentage p r + QTC.calculate_role_bonus p r +
         QTC.secondary_bonus p r))) :=
  ⟨⟨MOBA_pct_nonneg p r, MOBA_pct_le p r, rfl⟩,
   ⟨QTC_pct_nonneg p r, QTC_pct_le p r, rfl⟩⟩

/-! ### C3: role bonus -/

/-- A player whose Jungler core skills are all exactly 70: below the
80-threshold of the bonus rule, yet V0.1.0 grants its intermediate tier. -/
def bonusTierPlayer : Player :=
  { name := "Tier", age := 20,
    skills := [("Decision", 70), ("Vision", 70), ("Communication", 70)] }

/-- C3 counterexample: the V0.1.0 `calculate_role_bonus` is not
all-or-nothing.  `bonusTierPlayer` misses the Jungler thresholds
(all 80), so the claim demands a bonus of exactly 0, but the code
returns the intermediate tier value 10 (which is neither 0 nor the
rule's bonus value 15). -/
theorem C3_counterexample :
    QTC.calculate_role_bonus bonusTierPlayer Role.jungler = 10 ∧
    ¬ (∀ st ∈ (MOBA.role_bonuses Role.jungler).1,
        st.2 ≤ getSkill bonusTierPlayer.skills st.1) ∧
    (10 : ℚ) ≠ 0 ∧ (10 : ℚ) ≠ (MOBA.role_bonuses Role.jungler).2 := by
  have h1 : getSkill bonusTierPlayer.skills "Decision" = 70 := rfl
  have h2 : getSkill bonusTierPlayer.skills "Vision" = 70 := rfl
  have h3 : getSkill bonusTierPlayer.skills "Communication" = 70 := rfl
  have h4 : getSkill bonusTierPlayer.skills "Anticipation" = 0 := rfl
  have h5 : getSkill bonusTierPlayer.skills "Memory" = 0 := rfl
  refine ⟨?_, ?_, by norm_num, by norm_num [MOBA.role_bonuses]⟩
  · simp [QTC.calculate_role_bonus, h1, h2, h3, h4, h5]
    norm_num
  · intro h
    have := h ("Decision", 80) (by simp [MOBA.role_bonuses])
    rw [h1] at this
    omega

/-- C3 amended: in the V0.2.0 implementation (src/MOBA.py) the role bonus
is a flat all-or-nothing bonus — the role's single bonus value exactly
when every raw-skill threshold of the role's rule is met and exactly 0
otherwise — and in both implementations the returned bonus never exceeds
25 (V0.1.0 additionally has intermediate tiers and combo add-ons). -/
theorem C3_amended_flat_bonus_v2 (p : Player) (r : Role) :
    (MOBA.calculate_role_bonus p r =
      if ∀ st ∈ (MOBA.role_bonuses r).1, st.2 ≤ getSkill p.skills st.1
      then (MOBA.role_bonuses r).2 else 0) ∧
    MOBA.calculate_role_bonus p r ≤ 25 ∧
    QTC.calculate_role_bonus p r ≤ 25 ∧
    0 ≤ MOBA.calculate_role_bonus p r := by
  have hb : (MOBA.role_bonuses r).2 ≤ 25 ∧ 0 ≤ (MOBA.role_bonuses r).2 := by
    cases r <;> norm_num [MOBA.role_bonuses]
  have hall : ((MOBA.role_bonuses r).1.all
      (fun st => decide (st.2 ≤ getSkill p.skills st.1)) = true)
      ↔ (∀ st ∈ (MOBA.role_bonuses r).1, st.2 ≤ getSkill p.skills st.1) := by
    simp [List.all_eq_true]
  refine ⟨?_, ?_, ?_, ?_⟩
  · simp only [MOBA.calculate_role_bonus]
    split_ifs with h1 h2 h3
    · exact min_eq_left hb.1
    · exact absurd (hall.1 h1) h2
    · exact absurd (hall.2 h3) h1
    · simp
  · simp only [MOBA.calculate_role_bonus]
    exact min_le_right _ _
  · simp only [QTC.calculate_role_bonus]
    exact min_le_right _ _
  · simp only [MOBA.calculate_role_bonus]
    refine le_min ?_ (by norm_num)
    split_ifs
    · exact hb.2
    · exact le_refl 0

/-! ### Persistence: JSON model for save_team / load_team -/

/-- The JSON values relevant to roster persistence (Python's json module:
objects preserve key insertion order, integers round-trip exactly). -/
inductive Json where
  | null
  | bool (b : Bool)
  | num (n : ℤ)
  | str (s : String)
  | arr (elems : List Json)
  | obj (fields : List (String × Json))

/-- One player dict as produced by `get_player_data` and serialized by
`json.dump`: keys name, age, skills in insertion order. -/
def playerToJson (p : Player) : Json :=
  Json.obj [("name", Json.str p.name), ("age", Json.num p.age),
    ("skills", Json.obj (p.skills.map fun kv => (kv.1, Json.num kv.2)))]

/-- `save_team` (src/MOBA.py lines 428-438): `json.dump(self.players, f)`
writes the roster as a JSON array of player records, order preserved. -/
def save_team (players : List Player) : Json :=
  Json.arr (players.map playerToJson)

/-- Reading back one persisted skill map. -/
def decodeSkills : List (String × Json) → Option (List (String × ℤ))
  | [] => some []
  | (k, Json.num v) :: rest =>
      match decodeSkills rest with
      | some tail => some ((k, v) :: tail)
      | none => none
  | _ => none

/-- Reading back one persisted player record. -/
def decodePlayer : Json → Option Player
  | Json.obj [("name", Json.str n), ("age", Json.num a), ("skills", Json.obj sk)] =>
      match decodeSkills sk with
      | some skills => some { name := n, age := a, skills := skills }
      | none => none
  | _ => none

/-- Reading back a persisted roster, in order. -/
def decodePlayers : List Json → Option (List Player)
  | [] => some []
  | j :: js =>
      match decodePlayer j, decodePlayers js with
      | some p, some ps => some (p :: ps)
      | _, _ => none

/-- `load_team` (src/MOBA.py lines 440-448) stores the parsed JSON value
back into `self.players`; for a file produced by `save_team` the parsed
value is the saved array of player records, which this decoder reads
back into player records (same names, ages, skill maps, same order). -/
def load_team_decode : Json → Option (List Player)
  | Json.arr elems => decodePlayers elems
  | _ => none

lemma decodeSkills_map (sk : List (String × ℤ)) :
    decodeSkills (sk.map fun kv => (kv.1, Json.num kv.2)) = some sk := by
  induction sk with
  | nil => rfl
  | cons kv rest ih => cases kv; simp [decodeSkills, ih]

lemma decodePlayer_toJson (p : Player) : decodePlayer (playerToJson p) = some p := by
  cases p
  simp [playerToJson, decodePlayer, decodeSkills_map]

lemma decodePlayers_map (ps : List Player) :
    decodePlayers (ps.map playerToJson) = some ps := by
  induction ps with
  | nil => rfl
  | cons p rest ih => simp [decodePlayers, decodePlayer_toJson, ih]

/-- C8: round-trip persistence — serializing any roster with `save_team`
and reading the parsed file contents back as player records reproduces
an equal roster: same names, same ages, same skill maps, same order. -/
theorem C8_roundtrip_persistence (players : List Player) :
    load_team_decode (save_team players) = some players := by
  simp [save_team, load_team_decode, decodePlayers_map]

/-- True iff `refresh_player_list` succeeds on the freshly loaded value:
it must be an array of objects, each providing a "name" key, an integer
"age" and an object of integer "skills" — exactly the accesses performed
by `refresh_player_list` and `calculate_role_percentages` on each
record.  Any other shape raises inside the `try` block of `load_team`. -/
def record_ok (j : Json) : Bool :=
  match j with
  | Json.obj fields =>
      (match fields.lookup "name" with
        | some _ => true
        | none => false) &&
      (match fields.lookup "age" with
        | some (Json.num _) => true
        | _ => false) &&
      (match fields.lookup "skills" with
        | some (Json.obj sk) =>
            sk.all fun kv => match kv.2 with | Json.num _ => true | _ => false
        | _ => false)
  | _ => false

/-- Shape check for the whole loaded roster value. -/
def refresh_ok (j : Json) : Bool :=
  match j with
  | Json.arr elems => elems.all record_ok
  | _ => false

/-- `load_team` of src/MOBA.py (lines 440-448) as a state transition on
the in-memory roster.  The argument `file` is `none` when opening or
JSON-parsing raises (unreadable file or malformed JSON text) and
`some j` when `json.load` returns the value `j`.  Inside the `try` block
the code first runs `self.players = json.load(f)` and only then
`self.refresh_player_list()`; any exception lands in the `except` branch
which shows the failure message.  The result is (roster after the call,
whether the failure was reported). -/
def load_team (prior : Json) (file : Option Json) : Json × Bool :=
  match file with
  | none => (prior, true)
  | some j => (j, !refresh_ok j)

/-- A file whose text parses as JSON but whose single record is not a
player record (it lacks the "age" and "skills" keys). -/
def malformedRosterFile : Json := Json.arr [Json.obj [("name", Json.str "X")]]

/-- C9 counterexample: loading `malformedRosterFile` over the initial
empty roster is a failing load — the failure is reported to the caller —
yet the in-memory roster is NOT left as it was: `self.players` was
already replaced by the malformed data when `refresh_player_list`
raised. -/
theorem C9_counterexample :
    (load_team (Json.arr []) (some malformedRosterFile)).2 = true ∧
    (load_team (Json.arr []) (some malformedRosterFile)).1 ≠ Json.arr [] := by
  constructor
  · rfl
  · intro h
    simp [load_team, malformedRosterFile] at h

/-- C9 amended: when the failure happens while opening or parsing the
file (unreadable data or malformed JSON text), the failure is reported
and the in-memory roster is left exactly as it was, for every prior
roster state; but when the file parses to JSON whose content is a
malformed roster, the failure is reported only after the roster has
already been replaced by the parsed data. -/
theorem C9_amended_parse_failure_atomic (prior : Json) :
    load_team prior none = (prior, true) := rfl

/-! ### Assignment solvers -/

/-- A percentage map: `player["percentages"]`, precomputed by
`calculate_role_percentages` in `evaluate_team` before either solver
runs. -/
abbrev Perc := Role → ℚ

/-- An assignment: each role is vacant or holds a (player, score) pair;
the player is identified by their position in `self.players`. -/
abbrev Assignment := Role → Option (Nat × ℚ)

/-- Percentage map of roster entry `i` (out-of-range placeholder 0). -/
def percAt (ps : List Perc) (i : Nat) : Perc := ps.getD i (fun _ => 0)

/-- The roster entries with their positions attached (the source permutes
player dict objects; the position in `self.players` identifies them). -/
def indexed (ps : List Perc) : List (Nat × Perc) :=
  (List.range ps.length).map fun i => (i, percAt ps i)

/-- Total score of an assignment: the sum of the assigned scores, as
accumulated by the solver and by `show_evaluation_results`. -/
def totalScore (a : Assignment) : ℚ :=
  (rolesList.map fun r => match a r with | some p => p.2 | none => 0).sum

/-- A valid one-to-one pairing of roster players to roles: every assigned
pair holds a roster position with exactly that position's percentage for
the role, and no position appears in two role slots. -/
def validAssignment (ps : List Perc) (a : Assignment) : Prop :=
  (∀ r i s, a r = some (i, s) → i < ps.length ∧ s = percAt ps i r) ∧
  (∀ r1 r2 i s1 s2, a r1 = some (i, s1) → a r2 = some (i, s2) → r1 = r2)

namespace QTC

/-- All ways of choosing one element from a list, with the remaining
elements in their original order. -/
def selections : List α → List (α × List α)
  | [] => []
  | x :: xs => (x, xs) :: (selections xs).map fun p => (p.1, x :: p.2)

/-- `itertools.permutations(l, k)`: all ordered selections of `k` distinct
positions of `l`, in lexicographic position order. -/
def kperms : List α → Nat → List (List α)
  | _, 0 => [[]]
  | l, k + 1 => (selections l).flatMap fun s => (kperms s.2 k).map fun t => s.1 :: t

/-- The assignment built from one permutation tuple: the role at index
`i` of `rolesList` takes the i-th entry of the tuple — roles beyond the
tuple length stay vacant — scored with that player's percentage for the
role (src/quickteamcheck.py lines 803-812). -/
def assignmentOfPerm (perm : List (Nat × Perc)) : Assignment := fun r =>
  (perm.get? (roleIdx r)).map fun ip => (ip.1, ip.2 r)

/-- The loop body of the brute-force search: replace the best assignment
so far when the candidate's total strictly exceeds it
(src/quickteamcheck.py lines 813-815). -/
def bestStep (best : Option Assignment × ℚ) (perm : List (Nat × Perc)) :
    Option Assignment × ℚ :=
  if best.2 < totalScore (assignmentOfPerm perm)
  then (some (assignmentOfPerm perm), totalScore (assignmentOfPerm perm))
  else best

/-- The best-so-far fold of `find_optimal_assignment`
(src/quickteamcheck.py lines 800-815): scan the permutations, keeping
the first assignment whose total strictly exceeds the best so far
(initially -1). -/
def bestOf (cands : List (List (Nat × Perc))) : Option Assignment × ℚ :=
  cands.foldl bestStep (none, -1)

/-- Number of players with a viable (≥ 60) score for a role
(src/quickteamcheck.py lines 825-828). -/
def viableCount (ps : List (Nat × Perc)) (r : Role) : Nat :=
  (ps.filter fun ip => decide (60 ≤ ip.2 r)).length

/-- Stable insertion by count, modelling Python's stable
`role_priority.sort(key=lambda x: x[1])`. -/
def insertByCount (x : Role × Nat) : List (Role × Nat) → List (Role × Nat)
  | [] => [x]
  | y :: ys => if x.2 < y.2 then x :: y :: ys else y :: insertByCount x ys

/-- Stable insertion sort by count. -/
def sortByCount : List (Role × Nat) → List (Role × Nat)
  | [] => []
  | x :: xs => insertByCount x (sortByCount xs)

/-- `role_priority`, sorted ascending by viable count
(src/quickteamcheck.py lines 824-829). -/
def role_priority (roles : List Role) (ps : List (Nat × Perc)) : List (Role × Nat) :=
  sortByCount (roles.map fun r => (r, viableCount ps r))

/-- The inner selection loop of `greedy_assignment`: scan players in
order, skip used ones, keep the first strict maximum, starting from
best_score = -1 (src/quickteamcheck.py lines 830-840). -/
def pickBest (ps : List (Nat × Perc)) (used : List Nat) (r : Role) :
    Option (Nat × Perc) × ℚ :=
  ps.foldl
    (fun best ip =>
      if ip.1 ∈ used then best
      else if best.2 < ip.2 r then (some ip, ip.2 r) else best)
    (none, -1)

/-- Pointwise update of an assignment at one role (a dict write). -/
def updateA (a : Assignment) (r : Role) (v : Option (Nat × ℚ)) : Assignment :=
  fun r2 => if r2 = r then v else a r2

/-- The loop body of `greedy_assignment` for one role: assign the best
unused player (when one beat the initial -1) and mark them used, else
leave the role vacant (src/quickteamcheck.py lines 830-845). -/
def greedyStep (ps : List (Nat × Perc)) (st : Assignment × List Nat)
    (rc : Role × Nat) : Assignment × List Nat :=
  match pickBest ps st.2 rc.1 with
  | (some ip, s) => (updateA st.1 rc.1 (some (ip.1, s)), ip.1 :: st.2)
  | (none, _) => (updateA st.1 rc.1 none, st.2)

/-- `greedy_assignment` (src/quickteamcheck.py lines 820-846): process
roles by ascending viable count; for each, take the best unused player
and mark them used. -/
def greedy_assignment (roles : List Role) (ps : List (Nat × Perc)) : Assignment :=
  ((role_priority roles ps).foldl (greedyStep ps) ((fun _ => none), [])).1

/-- `find_optimal_assignment` (src/quickteamcheck.py lines 795-818):
brute force over `itertools.permutations(players, min(len(players), 5))`
for rosters of at most 5 players, greedy otherwise.  The fold yields
`none` only when no permutation beats the initial total -1 (the source
would then return Python `None`; the everywhere-vacant assignment stands
for it). -/
def find_optimal_assignment (ps : List Perc) : Assignment :=
  if ps.length ≤ 5 then
    (bestOf (kperms (indexed ps) (min ps.length rolesList.length))).1.getD fun _ => none
  else greedy_assignment rolesList (indexed ps)

end QTC

namespace MOBA

/-- Total cost of the matching that sends row (player) `i` to column
`c[i]`, under the matrix `f`. -/
def permCost (f : Nat → Nat → ℚ) (c : List Nat) : ℚ :=
  (Finset.range c.length).sum fun i => f i (c.getD i 0)

/-- Model of `scipy.optimize.linear_sum_assignment` on an n×n matrix: an
exact solver returning a column permutation of minimal total cost (here:
scan all permutations of the columns, keep the first strict improvement;
scipy's contract is exactly "some minimiser", and which minimiser is
returned among ties does not matter for any property proved here). -/
def linear_sum_assignment (n : Nat) (f : Nat → Nat → ℚ) : List Nat :=
  ((List.range n).permutations).foldl
    (fun best c => if permCost f c < permCost f best then c else best)
    (List.range n)

/-- The profit matrix of `find_optimal_assignment_hungarian`
(src/MOBA.py lines 536-539): column j < 5 holds the player's percentage
for role j; columns ≥ 5 keep their `np.zeros` value (dummy/bench). -/
def profit (ps : List Perc) (i j : Nat) : ℚ :=
  if j < rolesList.length then percAt ps i (roleOfIdx j) else 0

/-- `cost_matrix = 100 - profit_matrix` (src/MOBA.py line 544). -/
def cost (ps : List Perc) (i j : Nat) : ℚ := 100 - profit ps i j

/-- `find_optimal_assignment_hungarian` (src/MOBA.py lines 521-559).
The profit matrix is allocated as `np.zeros((num_players, num_players))`
but written at columns 0..4 for every row, so any roster of size 1..4
raises `IndexError` (modelled by `none` in
`find_optimal_assignment_hungarian` below).  Otherwise the matching `c`
is interpreted exactly as the loop on lines 550-557 does: role j is
filled by the row matched to column j (on the square matrix every column
is matched exactly once, so the single dict write for column j comes
from that row), the score being the player's precomputed percentage. -/
def hungAssign (ps : List Perc) : Assignment := fun r =>
  let c := linear_sum_assignment ps.length (cost ps)
  if roleIdx r ∈ c then
    some (c.indexOf (roleIdx r), percAt ps (c.indexOf (roleIdx r)) r)
  else none

/-- The guard and result of `find_optimal_assignment_hungarian`; see the
doc comment above `hungAssign` for the interpretation of the matching. -/
def find_optimal_assignment_hungarian (ps : List Perc) : Option Assignment :=
  if ps.length ≠ 0 ∧ ps.length < rolesList.length then none
  else some (hungAssign ps)

end MOBA

/-! ### C2: totality of scoring and assignment -/

/-- A plain single player (any one-player roster triggers the bug). -/
def soloPlayer : Player := { name := "Solo", age := 20, skills := [] }

/-- C2 fails on the code: on the roster consisting of the single player
`soloPlayer` — well-typed, merely smaller than the role count — the
V0.2.0 solver does not return an all-vacant-but-one result: filling the
1×1 profit matrix indexes column 1 and raises `IndexError` (modelled by
`none`).  The same happens for every roster size 1..4. -/
theorem C2_hungarian_not_total :
    MOBA.find_optimal_assignment_hungarian
      ([soloPlayer].map MOBA.calculate_role_percentages) = none := rfl

/-! ### C1: optimality of the assignment solvers -/

/-- A percentage map that is best on Support (90) and weak elsewhere. -/
def lopsidedPerc : Perc := fun r =>
  match r with
  | Role.support => 90
  | _ => 10

/-- The pairing that puts the only player on Support. -/
def supportOnly : Assignment := fun r =>
  match r with
  | Role.support => some (0, 90)
  | _ => none

/-- C1 counterexample: on the size-1 roster `[lopsidedPerc]` the V0.1.0
solver considers only the permutation that fills the first role
(Top Laner, score 10), so its returned pairing is beaten by the valid
one-to-one pairing `supportOnly` (score 90): the solver does not return
a global maximum for every roster size. -/
theorem C1_counterexample :
    validAssignment [lopsidedPerc] supportOnly ∧
    totalScore (QTC.find_optimal_assignment [lopsidedPerc]) <
      totalScore supportOnly := by
  refine ⟨⟨?_, ?_⟩, ?_⟩
  · intro r i s h
    cases r
    case support =>
      simp only [supportOnly, Option.some.injEq, Prod.mk.injEq] at h
      obtain ⟨hi, hs⟩ := h
      subst hi
      subst hs
      refine ⟨by norm_num, ?_⟩
      simp [percAt, lopsidedPerc]
    all_goals simp [supportOnly] at h
  · intro r1 r2 i s1 s2 h1 h2
    cases r1 <;> cases r2 <;> simp_all [supportOnly]
  · have h1 : indexed [lopsidedPerc] = [(0, percAt [lopsidedPerc] 0)] := by
      simp [indexed, List.range_succ]
    norm_num [QTC.find_optimal_assignment, h1, QTC.kperms, QTC.selections, QTC.bestOf,
      QTC.bestStep, QTC.assignmentOfPerm, totalScore, rolesList, roleIdx, supportOnly,
      percAt, lopsidedPerc]

/-! ### Properties of the brute-force fold -/

namespace QTC

lemma bestStep_le (acc : Option Assignment × ℚ) (perm : List (Nat × Perc)) :
    acc.2 ≤ (bestStep acc perm).2 := by
  unfold bestStep
  split_ifs with h
  · exact le_of_lt h
  · exact le_refl _

lemma foldl_bestStep_le (cands : List (List (Nat × Perc))) :
    ∀ acc, acc.2 ≤ (cands.foldl bestStep acc).2 := by
  induction cands with
  | nil => intro acc; exact le_refl _
  | cons c t ih => intro acc; exact le_trans (bestStep_le acc c) (ih (bestStep acc c))

lemma foldl_bestStep_ge_mem (cands : List (List (Nat × Perc))) :
    ∀ acc perm, perm ∈ cands →
      totalScore (assignmentOfPerm perm) ≤ (cands.foldl bestStep acc).2 := by
  induction cands with
  | nil => intro acc perm h; simp at h
  | cons c t ih =>
    intro acc perm h
    rcases List.mem_cons.1 h with rfl | h2
    · refine le_trans ?_ (foldl_bestStep_le t (bestStep acc perm))
      unfold bestStep
      split_ifs with hlt
      · exact le_refl _
      · exact le_of_not_lt hlt
    · exact ih (bestStep acc c) perm h2

lemma foldl_bestStep_inv (cands : List (List (Nat × Perc))) :
    ∀ acc, (∀ a, acc.1 = some a → acc.2 = totalScore a) →
      ∀ a, (cands.foldl bestStep acc).1 = some a →
        (cands.foldl bestStep acc).2 = totalScore a := by
  induction cands with
  | nil => intro acc hacc; exact hacc
  | cons c t ih =>
    intro acc hacc
    refine ih (bestStep acc c) ?_
    intro a ha
    unfold bestStep at ha ⊢
    split_ifs at ha ⊢ with h
    · simp only [Option.some.injEq] at ha
      rw [← ha]
    · exact hacc a ha

lemma foldl_bestStep_mem (cands : List (List (Nat × Perc))) :
    ∀ acc a, (cands.foldl bestStep acc).1 = some a →
      acc.1 = some a ∨ ∃ perm ∈ cands, a = assignmentOfPerm perm := by
  induction cands with
  | nil => intro acc a h; exact Or.inl h
  | cons c t ih =>
    intro acc a h
    rcases ih (bestStep acc c) a h with h1 | ⟨perm, hm, he⟩
    · unfold bestStep at h1
      split_ifs at h1 with hlt
      · simp only [Option.some.injEq] at h1
        exact Or.inr ⟨c, List.mem_cons_self c t, h1.symm⟩
      · exact Or.inl h1
    · exact Or.inr ⟨perm, List.mem_cons_of_mem c hm, he⟩

lemma foldl_bestStep_isSome (cands : List (List (Nat × Perc))) :
    ∀ acc, (acc.1.isSome = true ∨
        ∃ perm ∈ cands, acc.2 < totalScore (assignmentOfPerm perm)) →
      ((cands.foldl bestStep acc).1).isSome = true := by
  induction cands with
  | nil =>
    intro acc h
    rcases h with h | ⟨p, hp, _⟩
    · exact h
    · simp at hp
  | cons c t ih =>
    intro acc h
    refine ih (bestStep acc c) ?_
    by_cases hlt : acc.2 < totalScore (assignmentOfPerm c)
    · left
      unfold bestStep
      rw [if_pos hlt]
      rfl
    · rcases h with hs | ⟨p, hp, hplt⟩
      · left
        unfold bestStep
        rw [if_neg hlt]
        exact hs
      · rcases List.mem_cons.1 hp with rfl | hpt
        · exact absurd hplt hlt
        · right
          refine ⟨p, hpt, ?_⟩
          unfold bestStep
          rw [if_neg hlt]
          exact hplt

lemma bestOf_spec (cands : List (List (Nat × Perc)))
    (hne : ∃ perm ∈ cands, -1 < totalScore (assignmentOfPerm perm)) :
    ∃ a, (bestOf cands).1 = some a ∧ (bestOf cands).2 = totalScore a ∧
      (∃ perm ∈ cands, a = assignmentOfPerm perm) ∧
      ∀ perm ∈ cands, totalScore (assignmentOfPerm perm) ≤ totalScore a := by
  have hsome : ((bestOf cands).1).isSome = true :=
    foldl_bestStep_isSome cands (none, -1) (Or.inr hne)
  rcases ha : (bestOf cands).1 with _ | a
  · rw [ha] at hsome
    simp at hsome
  · have htot : (bestOf cands).2 = totalScore a :=
      foldl_bestStep_inv cands (none, -1) (by intro x hx; simp at hx) a ha
    have hmem := foldl_bestStep_mem cands (none, -1) a ha
    rcases hmem with h1 | h2
    · simp at h1
    · refine ⟨a, rfl, htot, h2, ?_⟩
      intro perm hp
      have hle := foldl_bestStep_ge_mem cands (none, -1) perm hp
      exact le_of_le_of_eq hle htot

/-! ### Properties of `selections` and `kperms` -/

lemma selections_perm {α : Type} {l : List α} :
    ∀ {x : α} {rest : List α}, (x, rest) ∈ selections l →
      List.Perm (x :: rest) l := by
  induction l with
  | nil => intro x rest h; simp [selections] at h
  | cons y ys ih =>
    intro x rest h
    simp only [selections, List.mem_cons, List.mem_map] at h
    rcases h with h | ⟨⟨x2, rest2⟩, hmem, heq⟩
    · rw [Prod.mk.injEq] at h
      obtain ⟨h1, h2⟩ := h
      subst h1
      subst h2
      exact List.Perm.refl _
    · rw [Prod.mk.injEq] at heq
      obtain ⟨he1, he2⟩ := heq
      subst he1
      subst he2
      have hp := ih hmem
      exact List.Perm.trans (List.Perm.swap y x2 rest2) (List.Perm.cons y hp)

lemma selections_cover {α : Type} (x : α) :
    ∀ (l1 l2 : List α), (x, l1 ++ l2) ∈ selections (l1 ++ x :: l2) := by
  intro l1
  induction l1 with
  | nil => intro l2; simp [selections]
  | cons y t ih =>
    intro l2
    simp only [List.cons_append, selections, List.mem_cons, List.mem_map]
    right
    exact ⟨(x, t ++ l2), ih l2, rfl⟩

lemma kperms_sound {α : Type} :
    ∀ (k : Nat) (l q : List α), q ∈ kperms l k →
      q.length = k ∧ List.Subperm q l := by
  intro k
  induction k with
  | zero =>
    intro l q h
    simp only [kperms, List.mem_singleton] at h
    subst h
    exact ⟨rfl, List.nil_subperm⟩
  | succ k ih =>
    intro l q h
    simp only [kperms, List.mem_flatMap, List.mem_map] at h
    obtain ⟨⟨x, rest⟩, hsel, t, ht, rfl⟩ := h
    obtain ⟨hlen, hsub⟩ := ih rest t ht
    refine ⟨by simp [hlen], ?_⟩
    have h1 : List.Subperm (x :: t) (x :: rest) := (List.subperm_cons x).2 hsub
    have h2 : List.Perm (x :: rest) l := selections_perm hsel
    exact h1.trans h2.subperm

lemma kperms_complete {α : Type} :
    ∀ (q l : List α), List.Perm q l → q ∈ kperms l l.length := by
  intro q
  induction q with
  | nil =>
    intro l h
    have hnil : l = [] := h.symm.eq_nil
    subst hnil
    simp [kperms]
  | cons x t ih =>
    intro l h
    have hx : x ∈ l := h.mem_iff.1 (List.mem_cons_self x t)
    obtain ⟨l1, l2, rfl⟩ := List.append_of_mem hx
    have hmid : List.Perm (l1 ++ x :: l2) (x :: (l1 ++ l2)) := List.perm_middle
    have ht : List.Perm t (l1 ++ l2) := (h.trans hmid).cons_inv
    have hlen : (l1 ++ x :: l2).length = (l1 ++ l2).length + 1 := by
      simp only [List.length_append, List.length_cons]
      omega
    rw [hlen]
    simp only [kperms, List.mem_flatMap, List.mem_map]
    exact ⟨(x, l1 ++ l2), selections_cover x l1 l2, t, ih (l1 ++ l2) ht, rfl⟩

end QTC

/-! ### Validity of the produced assignments -/

lemma mem_rolesList (r : Role) : r ∈ rolesList := by
  cases r <;> simp [rolesList]

lemma roleIdx_inj {r1 r2 : Role} (h : roleIdx r1 = roleIdx r2) : r1 = r2 := by
  cases r1 <;> cases r2 <;> simp_all [roleIdx]

lemma roleIdx_lt (r : Role) : roleIdx r < 5 := by
  cases r <;> simp [roleIdx]

lemma mem_indexed {ps : List Perc} {ip : Nat × Perc} (h : ip ∈ indexed ps) :
    ip.1 < ps.length ∧ ip.2 = percAt ps ip.1 := by
  simp only [indexed, List.mem_map, List.mem_range] at h
  obtain ⟨i, hi, rfl⟩ := h
  exact ⟨hi, rfl⟩

lemma indexed_length (ps : List Perc) : (indexed ps).length = ps.length := by
  simp [indexed]

lemma indexed_nodup (ps : List Perc) : (indexed ps).Nodup :=
  (List.nodup_range _).map fun _ _ hij => congrArg Prod.fst hij

lemma nodup_get?_inj {α : Type} {l : List α} (h : l.Nodup) {i j : Nat} {a : α}
    (hi : l.get? i = some a) (hj : l.get? j = some a) : i = j := by
  rw [List.get?_eq_getElem?, List.getElem?_eq_some] at hi hj
  obtain ⟨hi1, hi2⟩ := hi
  obtain ⟨hj1, hj2⟩ := hj
  exact (List.Nodup.getElem_inj_iff h).1 (hi2.trans hj2.symm)

lemma subperm_nodup {α : Type} {l1 l2 : List α} (h : List.Subperm l1 l2)
    (h2 : l2.Nodup) : l1.Nodup := by
  obtain ⟨l3, hp, hs⟩ := h
  exact hp.nodup (List.Sublist.nodup hs h2)

/-- Every tuple drawn from the positions of the roster yields a valid
assignment. -/
lemma assignmentOfPerm_valid {ps : List Perc} {q : List (Nat × Perc)}
    (hsub : List.Subperm q (indexed ps)) :
    validAssignment ps (QTC.assignmentOfPerm q) := by
  constructor
  · intro r i s h
    simp only [QTC.assignmentOfPerm, Option.map_eq_some'] at h
    obtain ⟨ip, hget, heq⟩ := h
    have hm : ip ∈ indexed ps := hsub.subset (List.get?_mem hget)
    obtain ⟨hlt, hperc⟩ := mem_indexed hm
    rw [Prod.mk.injEq] at heq
    obtain ⟨h1, h2⟩ := heq
    subst h1
    subst h2
    exact ⟨hlt, by rw [hperc]⟩
  · intro r1 r2 i s1 s2 h1 h2
    simp only [QTC.assignmentOfPerm, Option.map_eq_some'] at h1 h2
    obtain ⟨ip1, hget1, heq1⟩ := h1
    obtain ⟨ip2, hget2, heq2⟩ := h2
    have hm1 : ip1 ∈ indexed ps := hsub.subset (List.get?_mem hget1)
    have hm2 : ip2 ∈ indexed ps := hsub.subset (List.get?_mem hget2)
    rw [Prod.mk.injEq] at heq1 heq2
    have hfst : ip1.1 = ip2.1 := by rw [heq1.1, heq2.1]
    have hip : ip1 = ip2 := by
      simp only [indexed, List.mem_map, List.mem_range] at hm1 hm2
      obtain ⟨i1, _, rfl⟩ := hm1
      obtain ⟨i2, _, rfl⟩ := hm2
      simp only at hfst
      subst hfst
      rfl
    have hnodup : q.Nodup := subperm_nodup hsub (indexed_nodup ps)
    have hidx : roleIdx r1 = roleIdx r2 :=
      nodup_get?_inj hnodup hget1 (hip ▸ hget2)
    exact roleIdx_inj hidx

/-- The all-vacant assignment is valid for any roster. -/
lemma vacant_valid (ps : List Perc) : validAssignment ps fun _ => none := by
  constructor
  · intro r i s h
    cases h
  · intro r1 r2 i s1 s2 h1 h2
    cases h1

/-! ### Validity of the greedy solver -/

namespace QTC

lemma pickBest_aux (r : Role) (used : List Nat) :
    ∀ (l : List (Nat × Perc)) (acc : Option (Nat × Perc) × ℚ),
      (∀ ip, acc.1 = some ip → ip.1 ∉ used ∧ acc.2 = ip.2 r) →
      ∀ ip,
        (l.foldl
          (fun best ip2 =>
            if ip2.1 ∈ used then best
            else if best.2 < ip2.2 r then (some ip2, ip2.2 r) else best)
          acc).1 = some ip →
        (ip ∈ l ∨ acc.1 = some ip) ∧ ip.1 ∉ used ∧
          (l.foldl
            (fun best ip2 =>
              if ip2.1 ∈ used then best
              else if best.2 < ip2.2 r then (some ip2, ip2.2 r) else best)
            acc).2 = ip.2 r := by
  intro l
  induction l with
  | nil =>
    intro acc hacc ip h
    obtain ⟨h1, h2⟩ := hacc ip h
    exact ⟨Or.inr h, h1, h2⟩
  | cons x t ih =>
    intro acc hacc ip h
    simp only [List.foldl_cons] at h ⊢
    have hacc2 : ∀ ip2,
        (if x.1 ∈ used then acc
          else if acc.2 < x.2 r then (some x, x.2 r) else acc).1 = some ip2 →
        ip2.1 ∉ used ∧
          (if x.1 ∈ used then acc
            else if acc.2 < x.2 r then (some x, x.2 r) else acc).2 = ip2.2 r := by
      intro ip2 h2
      split_ifs at h2 ⊢ with hu hlt
      · exact hacc ip2 h2
      · simp only [Option.some.injEq] at h2
        subst h2
        exact ⟨hu, rfl⟩
      · exact hacc ip2 h2
    obtain ⟨hmem, hnu, htot⟩ := ih _ hacc2 ip h
    refine ⟨?_, hnu, htot⟩
    rcases hmem with hm | hm
    · exact Or.inl (List.mem_cons_of_mem x hm)
    · split_ifs at hm with hu hlt
      · exact Or.inr hm
      · simp only [Option.some.injEq] at hm
        subst hm
        exact Or.inl (List.mem_cons_self x t)
      · exact Or.inr hm

lemma pickBest_spec {l : List (Nat × Perc)} {used : List Nat} {r : Role}
    {ip : Nat × Perc} (h : (pickBest l used r).1 = some ip) :
    ip ∈ l ∧ ip.1 ∉ used ∧ (pickBest l used r).2 = ip.2 r := by
  have := pickBest_aux r used l (none, -1) (by intro x hx; cases hx) ip h
  rcases this with ⟨hm | hm, h2, h3⟩
  · exact ⟨hm, h2, h3⟩
  · cases hm

/-- The invariant carried by the greedy fold: assigned entries are
recorded in the used set, point into the roster with the right score,
and no roster position is assigned twice. -/
def GInv (ps : List Perc) (st : Assignment × List Nat) : Prop :=
  (∀ r i s, st.1 r = some (i, s) → i ∈ st.2 ∧ i < ps.length ∧ s = percAt ps i r) ∧
  (∀ r1 r2 i s1 s2, st.1 r1 = some (i, s1) → st.1 r2 = some (i, s2) → r1 = r2)

lemma greedyStep_inv {ps : List Perc} {st : Assignment × List Nat}
    (h : GInv ps st) (rc : Role × Nat) : GInv ps (greedyStep (indexed ps) st rc) := by
  unfold greedyStep
  rcases hpb : pickBest (indexed ps) st.2 rc.1 with ⟨o, sc⟩
  cases o with
  | none =>
    constructor
    · intro r i s hr
      have hr2 : (if r = rc.1 then none else st.1 r) = some (i, s) := hr
      by_cases he : r = rc.1
      · rw [if_pos he] at hr2
        cases hr2
      · rw [if_neg he] at hr2
        exact h.1 r i s hr2
    · intro r1 r2 i s1 s2 h1 h2
      have h1b : (if r1 = rc.1 then none else st.1 r1) = some (i, s1) := h1
      have h2b : (if r2 = rc.1 then none else st.1 r2) = some (i, s2) := h2
      by_cases he1 : r1 = rc.1 <;> by_cases he2 : r2 = rc.1
      · rw [he1, he2]
      · rw [if_pos he1] at h1b
        cases h1b
      · rw [if_pos he2] at h2b
        cases h2b
      · rw [if_neg he1] at h1b
        rw [if_neg he2] at h2b
        exact h.2 r1 r2 i s1 s2 h1b h2b
  | some ip =>
    have hspec : ip ∈ indexed ps ∧ ip.1 ∉ st.2 ∧
        (pickBest (indexed ps) st.2 rc.1).2 = ip.2 rc.1 :=
      pickBest_spec (by rw [hpb])
    have hsc : sc = ip.2 rc.1 := by
      have h2 := hspec.2.2
      rw [hpb] at h2
      exact h2
    obtain ⟨hidx, hperc⟩ := mem_indexed hspec.1
    constructor
    · intro r i s hr
      have hr2 : (if r = rc.1 then some (ip.1, sc) else st.1 r) = some (i, s) := hr
      by_cases he : r = rc.1
      · rw [if_pos he] at hr2
        simp only [Option.some.injEq, Prod.mk.injEq] at hr2
        obtain ⟨h1, h2⟩ := hr2
        subst h1
        subst h2
        subst he
        refine ⟨List.mem_cons_self _ _, hidx, ?_⟩
        rw [hsc, hperc]
      · rw [if_neg he] at hr2
        obtain ⟨hu, hlt, hs⟩ := h.1 r i s hr2
        exact ⟨List.mem_cons_of_mem _ hu, hlt, hs⟩
    · intro r1 r2 i s1 s2 h1 h2
      have h1b : (if r1 = rc.1 then some (ip.1, sc) else st.1 r1) = some (i, s1) := h1
      have h2b : (if r2 = rc.1 then some (ip.1, sc) else st.1 r2) = some (i, s2) := h2
      by_cases he1 : r1 = rc.1 <;> by_cases he2 : r2 = rc.1
      · rw [he1, he2]
      · rw [if_pos he1] at h1b
        rw [if_neg he2] at h2b
        simp only [Option.some.injEq, Prod.mk.injEq] at h1b
        obtain ⟨hu, _, _⟩ := h.1 r2 i s2 h2b
        rw [← h1b.1] at hu
        exact absurd hu hspec.2.1
      · rw [if_neg he1] at h1b
        rw [if_pos he2] at h2b
        simp only [Option.some.injEq, Prod.mk.injEq] at h2b
        obtain ⟨hu, _, _⟩ := h.1 r1 i s1 h1b
        rw [← h2b.1] at hu
        exact absurd hu hspec.2.1
      · rw [if_neg he1] at h1b
        rw [if_neg he2] at h2b
        exact h.2 r1 r2 i s1 s2 h1b h2b

lemma greedy_fold_inv {ps : List Perc} :
    ∀ (rcs : List (Role × Nat)) (st : Assignment × List Nat), GInv ps st →
      GInv ps (rcs.foldl (greedyStep (indexed ps)) st) := by
  intro rcs
  induction rcs with
  | nil => intro st h; exact h
  | cons rc t ih =>
    intro st h
    exact ih _ (greedyStep_inv h rc)

lemma greedy_valid (ps : List Perc) :
    validAssignment ps (greedy_assignment rolesList (indexed ps)) := by
  have hinit : GInv ps ((fun _ => none), []) := by
    constructor
    · intro r i s h
      cases h
    · intro r1 r2 i s1 s2 h1 h2
      cases h1
  have h := greedy_fold_inv (role_priority rolesList (indexed ps))
    ((fun _ => none), []) hinit
  unfold greedy_assignment
  constructor
  · intro r i s hr
    obtain ⟨_, hlt, hs⟩ := h.1 r i s hr
    exact ⟨hlt, hs⟩
  · exact h.2

end QTC

/-- Validity of the V0.1.0 solver result, for every roster size. -/
lemma v1_valid (ps : List Perc) :
    validAssignment ps (QTC.find_optimal_assignment ps) := by
  unfold QTC.find_optimal_assignment
  split_ifs with hlen
  · rcases hres : (QTC.bestOf (QTC.kperms (indexed ps)
        (min ps.length rolesList.length))).1 with _ | a
    · exact vacant_valid ps
    · have hmem := QTC.foldl_bestStep_mem
        (QTC.kperms (indexed ps) (min ps.length rolesList.length)) (none, -1) a hres
      rcases hmem with h1 | ⟨perm, hp, rfl⟩
      · cases h1
      · obtain ⟨_, hsub⟩ := QTC.kperms_sound _ _ _ hp
        exact assignmentOfPerm_valid hsub
  · exact QTC.greedy_valid ps

/-! ### Properties of the modelled exact matching solver -/

namespace MOBA

lemma lsa_fold_mem (f : Nat → Nat → ℚ) :
    ∀ (l : List (List Nat)) (acc : List Nat),
      l.foldl (fun best c => if permCost f c < permCost f best then c else best) acc = acc ∨
      l.foldl (fun best c => if permCost f c < permCost f best then c else best) acc ∈ l := by
  intro l
  induction l with
  | nil => intro acc; exact Or.inl rfl
  | cons c t ih =>
    intro acc
    rw [List.foldl_cons]
    rcases ih (if permCost f c < permCost f acc then c else acc) with h | h
    · rw [h]
      split_ifs with hc
      · exact Or.inr (List.mem_cons_self c t)
      · exact Or.inl rfl
    · exact Or.inr (List.mem_cons_of_mem c h)

lemma lsa_mem (n : Nat) (f : Nat → Nat → ℚ) :
    linear_sum_assignment n f ∈ (List.range n).permutations := by
  unfold linear_sum_assignment
  rcases lsa_fold_mem f ((List.range n).permutations) (List.range n) with h | h
  · rw [h]
    exact List.mem_permutations.2 (List.Perm.refl _)
  · exact h

lemma lsa_fold_le (f : Nat → Nat → ℚ) :
    ∀ (l : List (List Nat)) (acc : List Nat),
      permCost f
          (l.foldl (fun best c => if permCost f c < permCost f best then c else best) acc)
        ≤ permCost f acc := by
  intro l
  induction l with
  | nil => intro acc; exact le_refl _
  | cons c t ih =>
    intro acc
    rw [List.foldl_cons]
    refine le_trans (ih _) ?_
    split_ifs with hc
    · exact le_of_lt hc
    · exact le_refl _

lemma lsa_min (n : Nat) (f : Nat → Nat → ℚ) :
    ∀ c ∈ (List.range n).permutations,
      permCost f (linear_sum_assignment n f) ≤ permCost f c := by
  have haux : ∀ (l : List (List Nat)) (acc : List Nat) (c : List Nat), c ∈ l →
      permCost f
          (l.foldl (fun best c2 => if permCost f c2 < permCost f best then c2 else best) acc)
        ≤ permCost f c := by
    intro l
    induction l with
    | nil => intro acc c h; simp at h
    | cons x t ih =>
      intro acc c h
      rcases List.mem_cons.1 h with rfl | h2
      · rw [List.foldl_cons]
        refine le_trans (lsa_fold_le f t _) ?_
        split_ifs with hc
        · exact le_refl _
        · exact le_of_not_lt hc
      · rw [List.foldl_cons]
        exact ih _ c h2
  intro c hc
  exact haux _ _ c hc

end MOBA

/-- Validity of the V0.2.0 solver result whenever it returns one. -/
lemma hungarian_valid {ps : List Perc} {A : Assignment}
    (h : MOBA.find_optimal_assignment_hungarian ps = some A) :
    validAssignment ps A := by
  unfold MOBA.find_optimal_assignment_hungarian at h
  by_cases hg : ps.length ≠ 0 ∧ ps.length < rolesList.length
  · rw [if_pos hg] at h
    cases h
  · rw [if_neg hg] at h
    simp only [Option.some.injEq] at h
    subst h
    constructor
    · intro r i s hr
      simp only [MOBA.hungAssign] at hr
      split_ifs at hr with hmem
      simp only [Option.some.injEq, Prod.mk.injEq] at hr
      obtain ⟨h1, h2⟩ := hr
      subst h1
      subst h2
      have hc : (MOBA.linear_sum_assignment ps.length (MOBA.cost ps)).indexOf
          (roleIdx r) < (MOBA.linear_sum_assignment ps.length (MOBA.cost ps)).length :=
        List.indexOf_lt_length.2 hmem
      refine ⟨?_, rfl⟩
      have hclen : (MOBA.linear_sum_assignment ps.length (MOBA.cost ps)).length
          = ps.length := by
        have hm := MOBA.lsa_mem ps.length (MOBA.cost ps)
        have hml := (List.mem_permutations.1 hm).length_eq
        simpa using hml
      rw [hclen] at hc
      exact hc
    · intro r1 r2 i s1 s2 h1 h2
      simp only [MOBA.hungAssign] at h1 h2
      split_ifs at h1 h2 with m1 m2
      simp only [Option.some.injEq, Prod.mk.injEq] at h1 h2
      have hi : (MOBA.linear_sum_assignment ps.length (MOBA.cost ps)).indexOf
          (roleIdx r1) = (MOBA.linear_sum_assignment ps.length (MOBA.cost ps)).indexOf
          (roleIdx r2) := by
        rw [h1.1, h2.1]
      exact roleIdx_inj ((List.indexOf_inj m1 m2).1 hi)

/-! ### Totals, vacancies, and the extension of partial pairings -/

lemma percAt_nonneg_of {ps : List Perc} (hnn : ∀ p ∈ ps, ∀ r, 0 ≤ p r) :
    ∀ i r, 0 ≤ percAt ps i r := by
  intro i r
  unfold percAt
  by_cases h : i < ps.length
  · rw [List.getD_eq_getElem _ _ h]
    exact hnn _ (List.getElem_mem h) r
  · rw [List.getD_eq_default _ _ (le_of_not_lt h)]

lemma percAt_map (f : Player → Perc) (players : List Player) {i : Nat}
    (h : i < players.length) (r : Role) :
    percAt (players.map f) i r = f (players.getD i defaultPlayer) r := by
  unfold percAt
  rw [List.getD_eq_getElem _ _ (by simpa using h), List.getD_eq_getElem _ _ h]
  simp

lemma totalScore_nonneg_of_valid {ps : List Perc} {a : Assignment}
    (hnn : ∀ i r, 0 ≤ percAt ps i r) (hv : validAssignment ps a) :
    0 ≤ totalScore a := by
  unfold totalScore
  refine List.sum_nonneg ?_
  intro x hx
  simp only [List.mem_map] at hx
  obtain ⟨r, _, rfl⟩ := hx
  rcases ha : a r with _ | p
  · exact le_refl 0
  · have hs := hv.1 r p.1 p.2 (by rw [ha])
    show 0 ≤ p.2
    rw [hs.2]
    exact hnn p.1 r

/-- The roles left vacant by an assignment. -/
def vacantRoles (a : Assignment) : List Role :=
  rolesList.filter fun r => (a r).isNone

/-- The roster positions currently holding a role. -/
def usedIdx (a : Assignment) : List Nat :=
  rolesList.filterMap fun r => (a r).map Prod.fst

lemma used_vacant_length (a : Assignment) :
    (usedIdx a).length + (vacantRoles a).length = 5 := by
  have haux : ∀ l : List Role,
      (l.filterMap fun r => (a r).map Prod.fst).length
        + (l.filter fun r => (a r).isNone).length = l.length := by
    intro l
    induction l with
    | nil => simp
    | cons x t ih =>
      rcases hx : a x with _ | p <;> simp [hx] <;> omega
  have h5 := haux rolesList
  simpa [usedIdx, vacantRoles, rolesList] using h5

lemma exists_unused {a : Assignment} (hlt : (usedIdx a).length < 5) :
    ∃ i, i < 5 ∧ i ∉ usedIdx a := by
  by_contra hcon
  push_neg at hcon
  have hsub : List.range 5 ⊆ usedIdx a := by
    intro i hi
    exact hcon i (List.mem_range.1 hi)
  have hsp : List.Subperm (List.range 5) (usedIdx a) :=
    List.subperm_of_subset (List.nodup_range 5) hsub
  have hle := hsp.length_le
  simp only [List.length_range] at hle
  omega

lemma mem_usedIdx {a : Assignment} {i : Nat} :
    i ∈ usedIdx a ↔ ∃ r s, a r = some (i, s) := by
  unfold usedIdx
  simp only [List.mem_filterMap]
  constructor
  · intro ⟨r, _, hmap⟩
    rcases ha : a r with _ | p
    · rw [ha] at hmap
      cases hmap
    · rw [ha] at hmap
      simp only [Option.map_some', Option.some.injEq] at hmap
      exact ⟨r, p.2, by rw [ha, ← hmap]⟩
  · intro ⟨r, s, ha⟩
    exact ⟨r, mem_rolesList r, by simp [ha]⟩

lemma vacant_iff {a : Assignment} {r : Role} : r ∈ vacantRoles a ↔ a r = none := by
  unfold vacantRoles
  rw [List.mem_filter]
  constructor
  · intro ⟨_, h⟩
    exact Option.isNone_iff_eq_none.1 (by simpa using h)
  · intro h
    exact ⟨mem_rolesList r, by simp [h]⟩

lemma totalScore_update {a : Assignment} {r : Role} (hnone : a r = none)
    (v : Nat × ℚ) :
    totalScore (QTC.updateA a r (some v)) = totalScore a + v.2 := by
  cases r <;> simp [totalScore, rolesList, QTC.updateA, hnone] <;> ring

lemma length_filter_ne_lt {α : Type} [DecidableEq α] {l : List α} {x : α}
    (h : x ∈ l) :
    (l.filter fun y => decide ¬(y = x)).length < l.length := by
  induction l with
  | nil => simp at h
  | cons y t ih =>
    rw [List.filter_cons]
    by_cases hy : y = x
    · subst hy
      have hcond : (decide ¬(y = y)) = false := by simp
      rw [hcond]
      have hle := List.length_filter_le (fun z => decide ¬(z = y)) t
      simp only [Bool.false_eq_true, if_false, List.length_cons]
      omega
    · have hcond : (decide ¬(y = x)) = true := by simp [hy]
      rw [hcond]
      rcases List.mem_cons.1 h with h1 | h2
      · exact absurd h1.symm hy
      · have hlt := ih h2
        simp only [if_true, List.length_cons]
        omega

lemma vacantRoles_update_lt {a : Assignment} {r : Role}
    (hr : r ∈ vacantRoles a) (v : Nat × ℚ) :
    (vacantRoles (QTC.updateA a r (some v))).length < (vacantRoles a).length := by
  have heq : vacantRoles (QTC.updateA a r (some v))
      = List.filter (fun r2 => decide ¬(r2 = r) && (a r2).isNone) rolesList := by
    unfold vacantRoles
    refine List.filter_congr ?_
    intro x _
    by_cases hx : x = r
    · subst hx
      simp [QTC.updateA]
    · simp [QTC.updateA, hx]
  rw [heq, ← List.filter_filter]
  exact length_filter_ne_lt hr

lemma update_valid {ps : List Perc} {a : Assignment} (hv : validAssignment ps a)
    {r : Role} {i : Nat} (hi : i < ps.length) (hni : i ∉ usedIdx a) :
    validAssignment ps (QTC.updateA a r (some (i, percAt ps i r))) := by
  constructor
  · intro r2 j s hj
    have hj2 : (if r2 = r then some (i, percAt ps i r) else a r2) = some (j, s) := hj
    by_cases he : r2 = r
    · rw [if_pos he] at hj2
      simp only [Option.some.injEq, Prod.mk.injEq] at hj2
      obtain ⟨h1, h2⟩ := hj2
      subst h1
      subst h2
      subst he
      exact ⟨hi, rfl⟩
    · rw [if_neg he] at hj2
      exact hv.1 r2 j s hj2
  · intro r1 r2 j s1 s2 h1 h2
    have h1b : (if r1 = r then some (i, percAt ps i r) else a r1) = some (j, s1) := h1
    have h2b : (if r2 = r then some (i, percAt ps i r) else a r2) = some (j, s2) := h2
    by_cases he1 : r1 = r <;> by_cases he2 : r2 = r
    · rw [he1, he2]
    · rw [if_pos he1] at h1b
      rw [if_neg he2] at h2b
      simp only [Option.some.injEq, Prod.mk.injEq] at h1b
      have hj : j = i := h1b.1.symm
      subst hj
      exact absurd (mem_usedIdx.2 ⟨r2, s2, h2b⟩) hni
    · rw [if_neg he1] at h1b
      rw [if_pos he2] at h2b
      simp only [Option.some.injEq, Prod.mk.injEq] at h2b
      have hj : j = i := h2b.1.symm
      subst hj
      exact absurd (mem_usedIdx.2 ⟨r1, s1, h1b⟩) hni
    · rw [if_neg he1] at h1b
      rw [if_neg he2] at h2b
      exact hv.2 r1 r2 j s1 s2 h1b h2b

/-- Every valid (possibly partial) pairing of a 5-player roster with
nonnegative scores extends to a valid pairing with no vacant role and at
least the same total. -/
lemma exists_full_ge {ps : List Perc} (h5 : ps.length = 5)
    (hnn : ∀ i r, 0 ≤ percAt ps i r) :
    ∀ (n : Nat) (a : Assignment), (vacantRoles a).length = n →
      validAssignment ps a →
      ∃ b, validAssignment ps b ∧ vacantRoles b = [] ∧
        totalScore a ≤ totalScore b := by
  intro n
  induction n using Nat.strong_induction_on with
  | _ n ih =>
    intro a hlen hv
    rcases Nat.eq_zero_or_pos n with rfl | hpos
    · exact ⟨a, hv, List.length_eq_zero.1 hlen, le_refl _⟩
    · have hne : vacantRoles a ≠ [] := by
        intro hcon
        rw [hcon] at hlen
        simp at hlen
        omega
      obtain ⟨r, hr⟩ := List.exists_mem_of_ne_nil _ hne
      have hused : (usedIdx a).length < 5 := by
        have hsum := used_vacant_length a
        have hvpos : 0 < (vacantRoles a).length := by
          rw [hlen]
          exact hpos
        omega
      obtain ⟨i, hi5, hni⟩ := exists_unused hused
      have hi : i < ps.length := by
        rw [h5]
        exact hi5
      set a2 := QTC.updateA a r (some (i, percAt ps i r)) with ha2
      have hv2 : validAssignment ps a2 := update_valid hv hi hni
      have hlt : (vacantRoles a2).length < n := by
        rw [← hlen]
        exact vacantRoles_update_lt hr _
      obtain ⟨b, hvb, hfull, hle⟩ :=
        ih (vacantRoles a2).length hlt a2 rfl hv2
      refine ⟨b, hvb, hfull, le_trans ?_ hle⟩
      rw [ha2, totalScore_update (vacant_iff.1 hr)]
      have := hnn i r
      linarith

/-- A valid assignment with no vacancies on a 5-player roster is the
assignment of a full permutation tuple of the roster. -/
lemma full_assignment_perm {ps : List Perc} (h5 : ps.length = 5) {b : Assignment}
    (hv : validAssignment ps b) (hfull : vacantRoles b = []) :
    ∃ q, List.Perm q (indexed ps) ∧ QTC.assignmentOfPerm q = b := by
  have hassigned : ∀ r : Role, ∃ p : Nat × ℚ, b r = some p := by
    intro r
    rcases hb : b r with _ | p
    · exfalso
      have hmem : r ∈ vacantRoles b := vacant_iff.2 hb
      rw [hfull] at hmem
      cases hmem
    · exact ⟨p, rfl⟩
  obtain ⟨p0, hp0⟩ := hassigned Role.topLaner
  obtain ⟨p1, hp1⟩ := hassigned Role.jungler
  obtain ⟨p2, hp2⟩ := hassigned Role.midLaner
  obtain ⟨p3, hp3⟩ := hassigned Role.botLaner
  obtain ⟨p4, hp4⟩ := hassigned Role.support
  have h0 := hv.1 Role.topLaner p0.1 p0.2 (by rw [hp0])
  have h1 := hv.1 Role.jungler p1.1 p1.2 (by rw [hp1])
  have h2 := hv.1 Role.midLaner p2.1 p2.2 (by rw [hp2])
  have h3 := hv.1 Role.botLaner p3.1 p3.2 (by rw [hp3])
  have h4 := hv.1 Role.support p4.1 p4.2 (by rw [hp4])
  have hdist : ∀ (r1 r2 : Role) (pa pb : Nat × ℚ), b r1 = some pa →
      b r2 = some pb → pa.1 = pb.1 → r1 = r2 := by
    intro r1 r2 pa pb ha hb hfst
    refine hv.2 r1 r2 pa.1 pa.2 pb.2 (by rw [ha]) ?_
    rw [hfst]
    exact hb
  have hne : ∀ (r1 r2 : Role) (pa pb : Nat × ℚ), b r1 = some pa →
      b r2 = some pb → r1 ≠ r2 →
      (pa.1, percAt ps pa.1) ≠ (pb.1, percAt ps pb.1) := by
    intro r1 r2 pa pb ha hb hne12 hcon
    rw [Prod.mk.injEq] at hcon
    exact hne12 (hdist r1 r2 pa pb ha hb hcon.1)
  refine ⟨[(p0.1, percAt ps p0.1), (p1.1, percAt ps p1.1), (p2.1, percAt ps p2.1),
    (p3.1, percAt ps p3.1), (p4.1, percAt ps p4.1)], ?_, ?_⟩
  · have hmemI : ∀ k : Nat, k < ps.length → (k, percAt ps k) ∈ indexed ps := by
      intro k hk
      simp only [indexed, List.mem_map, List.mem_range]
      exact ⟨k, hk, rfl⟩
    have hsubset : [(p0.1, percAt ps p0.1), (p1.1, percAt ps p1.1),
        (p2.1, percAt ps p2.1), (p3.1, percAt ps p3.1),
        (p4.1, percAt ps p4.1)] ⊆ indexed ps := by
      intro x hx
      simp only [List.mem_cons, List.not_mem_nil, or_false] at hx
      rcases hx with rfl | rfl | rfl | rfl | rfl
      · exact hmemI _ h0.1
      · exact hmemI _ h1.1
      · exact hmemI _ h2.1
      · exact hmemI _ h3.1
      · exact hmemI _ h4.1
    have h01 := hne _ _ _ _ hp0 hp1 (by decide)
    have h02 := hne _ _ _ _ hp0 hp2 (by decide)
    have h03 := hne _ _ _ _ hp0 hp3 (by decide)
    have h04 := hne _ _ _ _ hp0 hp4 (by decide)
    have h12 := hne _ _ _ _ hp1 hp2 (by decide)
    have h13 := hne _ _ _ _ hp1 hp3 (by decide)
    have h14 := hne _ _ _ _ hp1 hp4 (by decide)
    have h23 := hne _ _ _ _ hp2 hp3 (by decide)
    have h24 := hne _ _ _ _ hp2 hp4 (by decide)
    have h34 := hne _ _ _ _ hp3 hp4 (by decide)
    have hnodup : ([(p0.1, percAt ps p0.1), (p1.1, percAt ps p1.1),
        (p2.1, percAt ps p2.1), (p3.1, percAt ps p3.1),
        (p4.1, percAt ps p4.1)]).Nodup := by
      simp only [List.nodup_cons, List.mem_cons, List.mem_singleton,
        List.not_mem_nil, or_false, not_or, List.nodup_nil, and_true]
      exact ⟨⟨h01, h02, h03, h04⟩, ⟨h12, h13, h14⟩, ⟨h23, h24⟩, h34, not_false⟩
    have hsp := List.subperm_of_subset hnodup hsubset
    refine hsp.perm_of_length_le ?_
    rw [indexed_length, h5]
    simp
  · funext r
    cases r
    case topLaner =>
      rw [hp0]
      show some (p0.1, percAt ps p0.1 Role.topLaner) = some p0
      rw [← h0.2]
    case jungler =>
      rw [hp1]
      show some (p1.1, percAt ps p1.1 Role.jungler) = some p1
      rw [← h1.2]
    case midLaner =>
      rw [hp2]
      show some (p2.1, percAt ps p2.1 Role.midLaner) = some p2
      rw [← h2.2]
    case botLaner =>
      rw [hp3]
      show some (p3.1, percAt ps p3.1 Role.botLaner) = some p3
      rw [← h3.2]
    case support =>
      rw [hp4]
      show some (p4.1, percAt ps p4.1 Role.support) = some p4
      rw [← h4.2]

/-- Brute-force optimality on rosters of exactly 5 players with
nonnegative percentage maps; also exhibits the returned assignment as a
full permutation tuple of the roster. -/
lemma v1_opt5 {ps : List Perc} (h5 : ps.length = 5)
    (hnn : ∀ i r, 0 ≤ percAt ps i r) :
    validAssignment ps (QTC.find_optimal_assignment ps) ∧
    (∀ b, validAssignment ps b →
      totalScore b ≤ totalScore (QTC.find_optimal_assignment ps)) ∧
    ∃ q, List.Perm q (indexed ps) ∧
      QTC.find_optimal_assignment ps = QTC.assignmentOfPerm q := by
  have hlen : ps.length ≤ 5 := le_of_eq h5
  have hk : min ps.length rolesList.length = 5 := by
    rw [h5]
    rfl
  have hilen : (indexed ps).length = 5 := by rw [indexed_length, h5]
  have hmem0 : indexed ps ∈ QTC.kperms (indexed ps) 5 := by
    have hcmp := QTC.kperms_complete (indexed ps) (indexed ps) (List.Perm.refl _)
    rw [hilen] at hcmp
    exact hcmp
  have hvq : validAssignment ps (QTC.assignmentOfPerm (indexed ps)) :=
    assignmentOfPerm_valid (List.Perm.refl _).subperm
  have hpos : -1 < totalScore (QTC.assignmentOfPerm (indexed ps)) := by
    have hge := totalScore_nonneg_of_valid hnn hvq
    linarith
  obtain ⟨astar, hsome, htot, ⟨perm, hpm, rfl⟩, hmax⟩ :=
    QTC.bestOf_spec (QTC.kperms (indexed ps) 5) ⟨indexed ps, hmem0, hpos⟩
  have hout : QTC.find_optimal_assignment ps = QTC.assignmentOfPerm perm := by
    unfold QTC.find_optimal_assignment
    rw [if_pos hlen, hk, hsome]
    rfl
  have hqp : List.Perm perm (indexed ps) := by
    obtain ⟨hplen, hpsub⟩ := QTC.kperms_sound _ _ _ hpm
    exact hpsub.perm_of_length_le (by rw [hilen, hplen])
  refine ⟨v1_valid ps, ?_, perm, hqp, hout⟩
  intro b hvb
  rw [hout]
  obtain ⟨b2, hvb2, hfull, hle⟩ := exists_full_ge h5 hnn _ b rfl hvb
  obtain ⟨q, hqperm, hq⟩ := full_assignment_perm h5 hvb2 hfull
  have hqmem : q ∈ QTC.kperms (indexed ps) 5 := by
    have hcmp := QTC.kperms_complete q (indexed ps) hqperm
    rw [hilen] at hcmp
    exact hcmp
  have hb2 : totalScore b2 ≤ totalScore (QTC.assignmentOfPerm perm) := by
    rw [← hq]
    exact hmax q hqmem
  exact le_trans hle hb2

/-! ### The Hungarian wrapper attains the same optimum on 5 players -/

lemma roleIdx_roleOfIdx {j : Nat} (h : j < 5) : roleIdx (roleOfIdx j) = j := by
  interval_cases j <;> rfl

lemma totalScore_eq_range (a : Assignment) :
    totalScore a = (Finset.range 5).sum
      (fun j => match a (roleOfIdx j) with | some p => p.2 | none => 0) := by
  simp [totalScore, rolesList, Finset.sum_range_succ, roleOfIdx]
  try ring

lemma sum_perm_reindex (m : List Nat) (hm : List.Perm m (List.range 5))
    (G : Nat → Nat → ℚ) :
    (Finset.range 5).sum (fun j => G (m.getD j 0) j) =
      (Finset.range 5).sum (fun i => G i (m.indexOf i)) := by
  have hlen : m.length = 5 := by simpa using hm.length_eq
  have hmem : ∀ j, j < 5 → j ∈ m := fun j hj => hm.mem_iff.2 (List.mem_range.2 hj)
  have hnodup : m.Nodup := hm.symm.nodup (List.nodup_range 5)
  refine Finset.sum_nbij' (fun j => m.getD j 0) (fun i => m.indexOf i)
    ?_ ?_ ?_ ?_ ?_
  · intro j hj
    have hj5 := Finset.mem_range.1 hj
    have hjl : j < m.length := by omega
    have hg : m.getD j 0 = m.get ⟨j, hjl⟩ := List.getD_eq_get m 0 hjl
    show m.getD j 0 ∈ Finset.range 5
    rw [hg]
    refine Finset.mem_range.2 ?_
    have hin : m.get ⟨j, hjl⟩ ∈ m := List.get_mem m j hjl
    exact List.mem_range.1 (hm.mem_iff.1 hin)
  · intro i hi
    have hi5 := Finset.mem_range.1 hi
    have hlt : m.indexOf i < m.length := List.indexOf_lt_length.2 (hmem i hi5)
    rw [hlen] at hlt
    exact Finset.mem_range.2 hlt
  · intro j hj
    have hj5 := Finset.mem_range.1 hj
    have hjl : j < m.length := by omega
    have hg : m.getD j 0 = m.get ⟨j, hjl⟩ := List.getD_eq_get m 0 hjl
    show m.indexOf (m.getD j 0) = j
    rw [hg, List.get_indexOf hnodup]
  · intro i hi
    have hi5 := Finset.mem_range.1 hi
    have hlt : m.indexOf i < m.length := List.indexOf_lt_length.2 (hmem i hi5)
    have hg : m.getD (m.indexOf i) 0 = m.get ⟨m.indexOf i, hlt⟩ :=
      List.getD_eq_get m 0 hlt
    show m.getD (m.indexOf i) 0 = i
    rw [hg]
    exact List.indexOf_get hlt
  · intro j hj
    have hj5 := Finset.mem_range.1 hj
    have hjl : j < m.length := by omega
    have hg : m.getD j 0 = m.get ⟨j, hjl⟩ := List.getD_eq_get m 0 hjl
    show G (m.getD j 0) j = G (m.getD j 0) (m.indexOf (m.getD j 0))
    rw [hg, List.get_indexOf hnodup]

/-- `hungAssign` written without its local let binding. -/
lemma hungAssign_eq (ps : List Perc) (r : Role) :
    MOBA.hungAssign ps r =
      if roleIdx r ∈ MOBA.linear_sum_assignment ps.length (MOBA.cost ps) then
        some ((MOBA.linear_sum_assignment ps.length (MOBA.cost ps)).indexOf (roleIdx r),
          percAt ps
            ((MOBA.linear_sum_assignment ps.length (MOBA.cost ps)).indexOf (roleIdx r)) r)
      else none := rfl

lemma hung_total_eq {ps : List Perc} (h5 : ps.length = 5) :
    totalScore (MOBA.hungAssign ps) =
      MOBA.permCost (MOBA.profit ps)
        (MOBA.linear_sum_assignment ps.length (MOBA.cost ps)) := by
  have hcperm : List.Perm (MOBA.linear_sum_assignment ps.length (MOBA.cost ps))
      (List.range 5) := by
    have hm := List.mem_permutations.1 (MOBA.lsa_mem ps.length (MOBA.cost ps))
    have hr : List.range ps.length = List.range 5 := by rw [h5]
    rw [hr] at hm
    exact hm
  have hclen : (MOBA.linear_sum_assignment ps.length (MOBA.cost ps)).length = 5 := by
    simpa using hcperm.length_eq
  have hmemc : ∀ j, j < 5 → j ∈ MOBA.linear_sum_assignment ps.length (MOBA.cost ps) :=
    fun j hj => hcperm.mem_iff.2 (List.mem_range.2 hj)
  rw [totalScore_eq_range]
  have hsum1 : (Finset.range 5).sum
      (fun j => match MOBA.hungAssign ps (roleOfIdx j) with | some p => p.2 | none => 0)
      = (Finset.range 5).sum (fun j => percAt ps
          ((MOBA.linear_sum_assignment ps.length (MOBA.cost ps)).indexOf j)
          (roleOfIdx j)) := by
    refine Finset.sum_congr rfl ?_
    intro j hj
    have hj5 := Finset.mem_range.1 hj
    have hidx := roleIdx_roleOfIdx hj5
    have hmem : roleIdx (roleOfIdx j) ∈
        MOBA.linear_sum_assignment ps.length (MOBA.cost ps) := by
      rw [hidx]
      exact hmemc j hj5
    rw [hungAssign_eq, if_pos hmem, hidx]
  rw [hsum1]
  unfold MOBA.permCost
  rw [hclen]
  have hsum2 : (Finset.range 5).sum
      (fun i => MOBA.profit ps i
        ((MOBA.linear_sum_assignment ps.length (MOBA.cost ps)).getD i 0))
      = (Finset.range 5).sum (fun i => percAt ps i
          (roleOfIdx ((MOBA.linear_sum_assignment ps.length (MOBA.cost ps)).getD i 0))) := by
    refine Finset.sum_congr rfl ?_
    intro i hi
    have hi5 := Finset.mem_range.1 hi
    have hilen : i < (MOBA.linear_sum_assignment ps.length (MOBA.cost ps)).length := by
      omega
    have hg : (MOBA.linear_sum_assignment ps.length (MOBA.cost ps)).getD i 0
        = (MOBA.linear_sum_assignment ps.length (MOBA.cost ps)).get ⟨i, hilen⟩ :=
      List.getD_eq_get _ 0 hilen
    have hin : (MOBA.linear_sum_assignment ps.length (MOBA.cost ps)).getD i 0 < 5 := by
      rw [hg]
      exact List.mem_range.1 (hcperm.mem_iff.1 (List.get_mem _ i hilen))
    unfold MOBA.profit
    rw [if_pos (by exact hin)]
  rw [hsum2]
  exact (sum_perm_reindex (MOBA.linear_sum_assignment ps.length (MOBA.cost ps)) hcperm
    (fun a b => percAt ps b (roleOfIdx a))).symm

lemma indexed_map_fst (ps : List Perc) :
    (indexed ps).map Prod.fst = List.range ps.length := by
  unfold indexed
  rw [List.map_map]
  have hid : (Prod.fst ∘ fun i => (i, percAt ps i)) = id := rfl
  rw [hid, List.map_id]

lemma permCost_cost (ps : List Perc) (c : List Nat) :
    MOBA.permCost (MOBA.cost ps) c =
      100 * c.length - MOBA.permCost (MOBA.profit ps) c := by
  unfold MOBA.permCost MOBA.cost
  rw [Finset.sum_sub_distrib, Finset.sum_const, Finset.card_range]
  simp [nsmul_eq_mul, mul_comm]

/-- The total of any full permutation assignment is at most the total of
the interpreted Hungarian matching (5-player roster). -/
lemma perm_total_le_hung {ps : List Perc} (h5 : ps.length = 5)
    {q : List (Nat × Perc)} (hq : List.Perm q (indexed ps)) :
    totalScore (QTC.assignmentOfPerm q) ≤ totalScore (MOBA.hungAssign ps) := by
  have hilen : (indexed ps).length = 5 := by rw [indexed_length, h5]
  have hql : q.length = 5 := by
    have := hq.length_eq
    omega
  have hm : List.Perm (q.map Prod.fst) (List.range 5) := by
    have hp := hq.map Prod.fst
    rw [indexed_map_fst, h5] at hp
    exact hp
  have hmlen : (q.map Prod.fst).length = 5 := by simp [hql]
  -- Step 1: the tuple total as a sum over role indices
  have hstep1 : totalScore (QTC.assignmentOfPerm q) =
      (Finset.range 5).sum
        (fun j => percAt ps ((q.map Prod.fst).getD j 0) (roleOfIdx j)) := by
    rw [totalScore_eq_range]
    refine Finset.sum_congr rfl ?_
    intro j hj
    have hj5 := Finset.mem_range.1 hj
    have hjq : j < q.length := by omega
    have hget : q.get? (roleIdx (roleOfIdx j)) = some (q.get ⟨j, hjq⟩) := by
      rw [roleIdx_roleOfIdx hj5]
      exact List.get?_eq_get hjq
    have hmem : q.get ⟨j, hjq⟩ ∈ indexed ps := hq.subset (List.get_mem q j hjq)
    obtain ⟨hlt, hperc⟩ := mem_indexed hmem
    have hgd : (q.map Prod.fst).getD j 0 = (q.get ⟨j, hjq⟩).1 := by
      have hjm : j < (q.map Prod.fst).length := by omega
      rw [List.getD_eq_get _ 0 hjm]
      simp
    show (match QTC.assignmentOfPerm q (roleOfIdx j) with
      | some p => p.2 | none => 0) = percAt ps ((q.map Prod.fst).getD j 0) (roleOfIdx j)
    unfold QTC.assignmentOfPerm
    rw [hget]
    simp only [Option.map_some']
    rw [hgd, hperc]
  -- Step 2: reindex by the inverse permutation
  have hstep2 : (Finset.range 5).sum
      (fun j => percAt ps ((q.map Prod.fst).getD j 0) (roleOfIdx j)) =
      (Finset.range 5).sum
        (fun i => percAt ps i (roleOfIdx ((q.map Prod.fst).indexOf i))) :=
    sum_perm_reindex (q.map Prod.fst) hm (fun a b => percAt ps a (roleOfIdx b))
  -- Step 3: that sum is the profit of an explicit column permutation
  have hc2len : ((List.range 5).map fun i => (q.map Prod.fst).indexOf i).length = 5 := by
    simp
  have hidxlt : ∀ i, i < 5 → (q.map Prod.fst).indexOf i < 5 := by
    intro i hi
    have hmem : i ∈ q.map Prod.fst := hm.mem_iff.2 (List.mem_range.2 hi)
    have := List.indexOf_lt_length.2 hmem
    omega
  have hstep3 : MOBA.permCost (MOBA.profit ps)
      ((List.range 5).map fun i => (q.map Prod.fst).indexOf i) =
      (Finset.range 5).sum
        (fun i => percAt ps i (roleOfIdx ((q.map Prod.fst).indexOf i))) := by
    unfold MOBA.permCost
    rw [hc2len]
    refine Finset.sum_congr rfl ?_
    intro i hi
    have hi5 := Finset.mem_range.1 hi
    have hil : i < ((List.range 5).map fun i2 => (q.map Prod.fst).indexOf i2).length := by
      omega
    have hgd : ((List.range 5).map fun i2 => (q.map Prod.fst).indexOf i2).getD i 0
        = (q.map Prod.fst).indexOf i := by
      rw [List.getD_eq_getElem _ 0 hil]
      simp
    rw [hgd]
    unfold MOBA.profit
    rw [if_pos]
    exact hidxlt i hi5
  -- Step 4: that column list is a permutation of the columns
  have hc2perm : List.Perm ((List.range 5).map fun i => (q.map Prod.fst).indexOf i)
      (List.range ps.length) := by
    have hnodup : ((List.range 5).map fun i => (q.map Prod.fst).indexOf i).Nodup := by
      refine List.Nodup.map_on ?_ (List.nodup_range 5)
      intro x hx y hy hxy
      have hx5 := List.mem_range.1 hx
      have hy5 := List.mem_range.1 hy
      have hxm : x ∈ q.map Prod.fst := hm.mem_iff.2 (List.mem_range.2 hx5)
      have hym : y ∈ q.map Prod.fst := hm.mem_iff.2 (List.mem_range.2 hy5)
      exact (List.indexOf_inj hxm hym).1 hxy
    have hsubset : ((List.range 5).map fun i => (q.map Prod.fst).indexOf i)
        ⊆ List.range 5 := by
      intro x hx
      simp only [List.mem_map, List.mem_range] at hx
      obtain ⟨i, hi, rfl⟩ := hx
      exact List.mem_range.2 (hidxlt i hi)
    have hsp := List.subperm_of_subset hnodup hsubset
    have hperm5 := hsp.perm_of_length_le (by simp)
    have hr : List.range ps.length = List.range 5 := by rw [h5]
    rw [hr]
    exact hperm5
  -- Step 5: the exact solver beats this column permutation
  have hmin := MOBA.lsa_min ps.length (MOBA.cost ps)
    ((List.range 5).map fun i => (q.map Prod.fst).indexOf i)
    (List.mem_permutations.2 hc2perm)
  have hslen : (MOBA.linear_sum_assignment ps.length (MOBA.cost ps)).length = 5 := by
    have hmp := List.mem_permutations.1 (MOBA.lsa_mem ps.length (MOBA.cost ps))
    have := hmp.length_eq
    simp only [List.length_range] at this
    omega
  rw [permCost_cost, permCost_cost, hslen, hc2len] at hmin
  -- Step 6: assemble
  rw [hstep1, hstep2, ← hstep3, hung_total_eq h5]
  linarith

/-- Optimality of the Hungarian wrapper on 5-player rosters, and
agreement with the brute-force solver. -/
lemma hung_opt5 {ps : List Perc} (h5 : ps.length = 5)
    (hnn : ∀ i r, 0 ≤ percAt ps i r) :
    MOBA.find_optimal_assignment_hungarian ps = some (MOBA.hungAssign ps) ∧
    validAssignment ps (MOBA.hungAssign ps) ∧
    totalScore (MOBA.hungAssign ps) = totalScore (QTC.find_optimal_assignment ps) ∧
    ∀ b, validAssignment ps b → totalScore b ≤ totalScore (MOBA.hungAssign ps) := by
  have hsome : MOBA.find_optimal_assignment_hungarian ps
      = some (MOBA.hungAssign ps) := by
    have hne : ¬(ps.length ≠ 0 ∧ ps.length < rolesList.length) := by
      intro hcon
      rw [h5] at hcon
      have h2 := hcon.2
      norm_num [rolesList] at h2
    unfold MOBA.find_optimal_assignment_hungarian
    rw [if_neg hne]
  have hval := hungarian_valid hsome
  obtain ⟨hv1val, hv1max, q, hqperm, hqout⟩ := v1_opt5 h5 hnn
  have hge : totalScore (QTC.find_optimal_assignment ps)
      ≤ totalScore (MOBA.hungAssign ps) := by
    rw [hqout]
    exact perm_total_le_hung h5 hqperm
  have hle : totalScore (MOBA.hungAssign ps)
      ≤ totalScore (QTC.find_optimal_assignment ps) := hv1max _ hval
  refine ⟨hsome, hval, le_antisymm hle hge, ?_⟩
  intro b hvb
  exact le_trans (hv1max b hvb) hge

lemma percMaps_nonneg_QTC (players : List Player) :
    ∀ i r, 0 ≤ percAt (players.map QTC.calculate_role_percentages) i r := by
  refine percAt_nonneg_of ?_
  intro p hp r
  simp only [List.mem_map] at hp
  obtain ⟨pl, _, rfl⟩ := hp
  exact QTC_pct_nonneg pl r

lemma percMaps_nonneg_MOBA (players : List Player) :
    ∀ i r, 0 ≤ percAt (players.map MOBA.calculate_role_percentages) i r := by
  refine percAt_nonneg_of ?_
  intro p hp r
  simp only [List.mem_map] at hp
  obtain ⟨pl, _, rfl⟩ := hp
  exact MOBA_pct_nonneg pl r

/-- C1 amended: for every roster of exactly 5 players — the full-team
case both solvers are invoked on — each solver returns a valid
one-to-one pairing whose summed fit score is greater than or equal to
that of every other valid one-to-one pairing of roster players to roles
(scores taken from that file's own scorer).  For other roster sizes the
original claim fails: see the counterexample (V0.1.0 fills only the
first `len(roster)` roles when the roster is smaller than 5, uses the
suboptimal greedy pass above 5, and V0.2.0 raises IndexError on sizes
1-4). -/
theorem C1_amended_optimal_on_full_roster (players : List Player)
    (h5 : players.length = 5) :
    (validAssignment (players.map QTC.calculate_role_percentages)
        (QTC.find_optimal_assignment (players.map QTC.calculate_role_percentages)) ∧
      ∀ b, validAssignment (players.map QTC.calculate_role_percentages) b →
        totalScore b ≤ totalScore (QTC.find_optimal_assignment
          (players.map QTC.calculate_role_percentages))) ∧
    ∃ A, MOBA.find_optimal_assignment_hungarian
        (players.map MOBA.calculate_role_percentages) = some A ∧
      validAssignment (players.map MOBA.calculate_role_percentages) A ∧
      ∀ b, validAssignment (players.map MOBA.calculate_role_percentages) b →
        totalScore b ≤ totalScore A := by
  have hl1 : (players.map QTC.calculate_role_percentages).length = 5 := by
    simp [h5]
  have hl2 : (players.map MOBA.calculate_role_percentages).length = 5 := by
    simp [h5]
  obtain ⟨ha, hb, _⟩ := v1_opt5 hl1 (percMaps_nonneg_QTC players)
  obtain ⟨hc, hd, _, he⟩ := hung_opt5 hl2 (percMaps_nonneg_MOBA players)
  exact ⟨⟨ha, hb⟩, MOBA.hungAssign _, hc, hd, he⟩

/-- A concrete 5-player roster (empty skill maps). -/
def fiveDefaultPlayers : List Player :=
  [{ name := "P1", age := 20, skills := [] }, { name := "P2", age := 20, skills := [] },
   { name := "P3", age := 20, skills := [] }, { name := "P4", age := 20, skills := [] },
   { name := "P5", age := 20, skills := [] }]

/-- Witness for the amended C1 at a concrete 5-player roster. -/
theorem C1_amended_witness :
    (validAssignment (fiveDefaultPlayers.map QTC.calculate_role_percentages)
        (QTC.find_optimal_assignment
          (fiveDefaultPlayers.map QTC.calculate_role_percentages)) ∧
      ∀ b, validAssignment (fiveDefaultPlayers.map QTC.calculate_role_percentages) b →
        totalScore b ≤ totalScore (QTC.find_optimal_assignment
          (fiveDefaultPlayers.map QTC.calculate_role_percentages))) ∧
    ∃ A, MOBA.find_optimal_assignment_hungarian
        (fiveDefaultPlayers.map MOBA.calculate_role_percentages) = some A ∧
      validAssignment (fiveDefaultPlayers.map MOBA.calculate_role_percentages) A ∧
      ∀ b, validAssignment (fiveDefaultPlayers.map MOBA.calculate_role_percentages) b →
        totalScore b ≤ totalScore A :=
  C1_amended_optimal_on_full_roster fiveDefaultPlayers rfl

/-- C10: on every roster of exactly 5 players, each carrying one shared
precomputed (nonnegative) role-percentage mapping, the V0.2.0 Hungarian
solver returns an assignment whose total assigned score equals that of
the V0.1.0 brute-force solver. -/
theorem C10_solvers_agree_on_optimum (ps : List Perc) (h5 : ps.length = 5)
    (hnn : ∀ p ∈ ps, ∀ r, 0 ≤ p r) :
    ∃ A, MOBA.find_optimal_assignment_hungarian ps = some A ∧
      totalScore A = totalScore (QTC.find_optimal_assignment ps) := by
  obtain ⟨hsome, _, heq, _⟩ := hung_opt5 h5 (percAt_nonneg_of hnn)
  exact ⟨_, hsome, heq⟩

/-- Witness for C10 at the all-zero 5-entry percentage list. -/
theorem C10_witness :
    ∃ A, MOBA.find_optimal_assignment_hungarian
        (List.replicate 5 ((fun _ => 0) : Perc)) = some A ∧
      totalScore A = totalScore (QTC.find_optimal_assignment
        (List.replicate 5 ((fun _ => 0) : Perc))) :=
  C10_solvers_agree_on_optimum (List.replicate 5 ((fun _ => 0) : Perc)) rfl
    (by
      intro p hp r
      rw [List.eq_of_mem_replicate hp])

/-- C4: in every assignment result of the three solver paths (V0.1.0
brute force, V0.1.0 greedy, V0.2.0 Hungarian when it returns), no roster
position appears in two role slots, and every assigned pair carries
exactly the percentage that the respective file's scorer computes for
that player and role (the final conjunct identifies the solver-input
maps with the scorer's output on each roster member). -/
theorem C4_assignment_validity (players : List Player) :
    validAssignment (players.map QTC.calculate_role_percentages)
      (QTC.find_optimal_assignment (players.map QTC.calculate_role_percentages)) ∧
    validAssignment (players.map QTC.calculate_role_percentages)
      (QTC.greedy_assignment rolesList
        (indexed (players.map QTC.calculate_role_percentages))) ∧
    (∀ A, MOBA.find_optimal_assignment_hungarian
        (players.map MOBA.calculate_role_percentages) = some A →
      validAssignment (players.map MOBA.calculate_role_percentages) A) ∧
    ∀ i r, i < players.length →
      percAt (players.map QTC.calculate_role_percentages) i r =
        QTC.calculate_role_percentages (players.getD i defaultPlayer) r ∧
      percAt (players.map MOBA.calculate_role_percentages) i r =
        MOBA.calculate_role_percentages (players.getD i defaultPlayer) r :=
  ⟨v1_valid _, QTC.greedy_valid _, fun _ h => hungarian_valid h,
    fun _ r hi => ⟨percAt_map _ players hi r, percAt_map _ players hi r⟩⟩

/-- Witness for C4 at a concrete 5-player roster. -/
theorem C4_validity_witness :
    validAssignment (fiveDefaultPlayers.map QTC.calculate_role_percentages)
      (QTC.find_optimal_assignment
        (fiveDefaultPlayers.map QTC.calculate_role_percentages)) ∧
    validAssignment (fiveDefaultPlayers.map QTC.calculate_role_percentages)
      (QTC.greedy_assignment rolesList
        (indexed (fiveDefaultPlayers.map QTC.calculate_role_percentages))) ∧
    (∀ A, MOBA.find_optimal_assignment_hungarian
        (fiveDefaultPlayers.map MOBA.calculate_role_percentages) = some A →
      validAssignment (fiveDefaultPlayers.map MOBA.calculate_role_percentages) A) ∧
    ∀ i r, i < fiveDefaultPlayers.length →
      percAt (fiveDefaultPlayers.map QTC.calculate_role_percentages) i r =
        QTC.calculate_role_percentages (fiveDefaultPlayers.getD i defaultPlayer) r ∧
      percAt (fiveDefaultPlayers.map MOBA.calculate_role_percentages) i r =
        MOBA.calculate_role_percentages (fiveDefaultPlayers.getD i defaultPlayer) r :=
  C4_assignment_validity fiveDefaultPlayers
